import Mathlib

/-!
# chash: a separate-chaining hash map (`src/hashmap.hpp`)

Shallow embedding of `HashMap<K, V, Hash>`.

* A chain of `Node`s (`key`, `value`, `next`) is the list of its `(key, value)` pairs, head first.
* `buckets` (a vector of chain heads) is a list of chains.
* `size_t` values are natural numbers.  Increments and the doubling of the table length are
  not reduced modulo `2 ^ 64` (a table of that many nodes or buckets cannot be allocated); the
  one place where the unsigned counter can leave the naturals, `size_--` at zero, is modelled
  with its wrap-around to `SIZE_MAX`.
* `float` is IEEE binary32 with round-to-nearest, ties to even.  A finite `float` is
  represented by its exact rational value, and `toFloat` rounds a rational to the nearest
  binary32 value.  The test `float(size_ + 1) / buckets.size() > max_load_factor_` rounds three
  times: the two conversions from `size_t` and the division (a zero divisor gives `+inf`).
  The exponent range is not modelled: every quantity rounded here lies between `2 ^ (-64)` and
  `2 ^ 64`, far inside the normal range.  `max_load_factor_` holds a finite value.
* `hasher(key) % n` with `n = 0` is undefined in the source: operations return `none` there.
-/

namespace Chash

/-- Largest value of the unsigned counter type `size_t` (64 bit). -/
def SIZE_MAX : Nat := 2 ^ 64 - 1

/-- Number of binary digits of `n`, by repeated halving; `fuel` bounds the number of steps. -/
def bitLengthAux : Nat → Nat → Nat
  | 0, _ => 0
  | fuel + 1, n => if n = 0 then 0 else bitLengthAux fuel (n / 2) + 1

/-- Number of binary digits of `n`: the least `k` with `n < 2 ^ k`. -/
def bitLength (n : Nat) : Nat := bitLengthAux n n

/-- The rational `2 ^ z` for an integer exponent `z`. -/
def pow2 (z : ℤ) : ℚ := if 0 ≤ z then (2 : ℚ) ^ z.toNat else 1 / (2 : ℚ) ^ (-z).toNat

/-- Binary exponent of a positive rational `x`: the `e` with `2 ^ e ≤ x < 2 ^ (e + 1)`.  The
digit counts of numerator and denominator give it up to one, and a comparison settles it. -/
def binaryExponent (x : ℚ) : ℤ :=
  if pow2 ((bitLength x.num.toNat : ℤ) - (bitLength x.den : ℤ)) ≤ x
  then (bitLength x.num.toNat : ℤ) - (bitLength x.den : ℤ)
  else (bitLength x.num.toNat : ℤ) - (bitLength x.den : ℤ) - 1

/-- Nearest integer, ties to the even one. -/
def roundHalfEven (y : ℚ) : ℤ :=
  if y - (⌊y⌋ : ℚ) < 1 / 2 then ⌊y⌋
  else if 1 / 2 < y - (⌊y⌋ : ℚ) then ⌊y⌋ + 1
  else if ⌊y⌋ % 2 = 0 then ⌊y⌋ else ⌊y⌋ + 1

/-- Nearest binary32 value of a positive rational: the significand, scaled into
`[2 ^ 23, 2 ^ 24)`, is rounded to an integer, ties to even. -/
def roundPos (x : ℚ) : ℚ :=
  (roundHalfEven (x * pow2 (23 - binaryExponent x)) : ℚ) * pow2 (binaryExponent x - 23)

/-- Rounding to binary32 (round to nearest, ties to even): what a conversion to `float` and
what a `float` operation do to the exact result. -/
def toFloat (x : ℚ) : ℚ :=
  if 0 < x then roundPos x else if x < 0 then -roundPos (-x) else 0

/-- State of a `HashMap`: the private members `buckets`, `size_`, `max_load_factor_`, `hasher`. -/
structure HashMap (K V : Type) where
  buckets : List (List (K × V))
  size_ : Nat
  max_load_factor_ : ℚ
  hasher : K → Nat

namespace HashMap

variable {K V : Type}

/-- Constructor `HashMap(initial_capacity, max_load_factor)`: `initial_capacity` empty buckets,
`size_ = 0`. -/
def construct (initial_capacity : Nat) (max_load_factor : ℚ) (hasher : K → Nat) : HashMap K V :=
  ⟨List.replicate initial_capacity [], 0, max_load_factor, hasher⟩

/-- Constructor with the default arguments `initial_capacity = 16`, `max_load_factor = 0.75`. -/
def constructDefault (hasher : K → Nat) : HashMap K V :=
  construct 16 (3 / 4) hasher

/-- Member `size()`. -/
def size (m : HashMap K V) : Nat := m.size_

/-- Member `empty()`. -/
def empty (m : HashMap K V) : Bool := decide (m.size_ = 0)

/-- The statement `size_--` on an unsigned counter. -/
def decrement (n : Nat) : Nat := if n = 0 then SIZE_MAX else n - 1

/-- Inner `while (bucket)` loop of `resize` for one chain: each node gets `next = nullptr`
(`bucket->next` was moved out, then assigned to itself) and is stored into
`new_buckets[new_index]`, replacing what that slot held. -/
def relinkChain (hasher : K → Nat) (new_capacity : Nat) :
    List (K × V) → List (List (K × V)) → Option (List (List (K × V)))
  | [], new_buckets => some new_buckets
  | node :: next, new_buckets =>
    if new_capacity = 0 then none
    else relinkChain hasher new_capacity next
      (new_buckets.set (hasher node.1 % new_capacity) [node])

/-- Outer `for (auto& bucket : buckets)` loop of `resize`. -/
def relinkBuckets (hasher : K → Nat) (new_capacity : Nat) :
    List (List (K × V)) → List (List (K × V)) → Option (List (List (K × V)))
  | [], new_buckets => some new_buckets
  | bucket :: rest, new_buckets =>
    (relinkChain hasher new_capacity bucket new_buckets).bind
      (relinkBuckets hasher new_capacity rest)

/-- Member `resize(new_capacity)`. -/
def resize (m : HashMap K V) (new_capacity : Nat) : Option (HashMap K V) :=
  (relinkBuckets m.hasher new_capacity m.buckets (List.replicate new_capacity [])).map
    fun new_buckets => { m with buckets := new_buckets }

/-- The test `float(size_ + 1) / buckets.size() > max_load_factor_` of `insert`, in binary32:
`size_ + 1` is converted to `float`, `buckets.size()` is converted to `float` for the division,
and the quotient is rounded. -/
def loadExceeded (m : HashMap K V) : Bool :=
  if m.buckets.length = 0 then true
  else decide (m.max_load_factor_
    < toFloat (toFloat ((m.size_ + 1 : Nat) : ℚ) / toFloat ((m.buckets.length : Nat) : ℚ)))

variable [DecidableEq K]

/-- The `while (current)` loop of `get`: value of the first node whose key equals `key`. -/
def findInChain (key : K) : List (K × V) → Option V
  | [] => none
  | node :: next => if node.1 = key then some node.2 else findInChain key next

/-- The `while (current)` loop of `insert`: overwrite the value of the first node whose key
equals `key`; `none` when the loop runs off the end of the chain. -/
def updateChain (key : K) (value : V) : List (K × V) → Option (List (K × V))
  | [] => none
  | node :: next =>
    if node.1 = key then some ((node.1, value) :: next)
    else (updateChain key value next).map fun chain => node :: chain

/-- The `while (current->next)` loop of `remove`, `current` being the head of the argument:
unlink the first node after `current` whose key equals `key`; `none` when there is none. -/
def unlinkAfter (key : K) : List (K × V) → Option (List (K × V))
  | [] => none
  | [_] => none
  | current :: node :: next =>
    if node.1 = key then some (current :: next)
    else (unlinkAfter key (node :: next)).map fun chain => current :: chain

/-- A chain without its first node of key `key` (specification of what `remove` leaves of the
chain it searches; used to state lemmas, not part of the source). -/
def dropKey (key : K) : List (K × V) → List (K × V)
  | [] => []
  | node :: next => if node.1 = key then next else node :: dropKey key next

/-- Member `get(key)`: `some (some v)` for a pointer to `v`, `some none` for `nullptr`. -/
def get (m : HashMap K V) (key : K) : Option (Option V) :=
  if m.buckets.length = 0 then none
  else some (findInChain key (m.buckets.getD (m.hasher key % m.buckets.length) []))

/-- Lines 93-110 of `insert`, after the growth step: look `key` up in its chain, overwrite the
value when it is there, link a new node at the head of the chain and count it when it is not. -/
def insertAt (m : HashMap K V) (key : K) (value : V) : Option (HashMap K V) :=
  if m.buckets.length = 0 then none
  else
    let index := m.hasher key % m.buckets.length
    match updateChain key value (m.buckets.getD index []) with
    | some chain => some { m with buckets := m.buckets.set index chain }
    | none =>
      some { m with
        buckets := m.buckets.set index ((key, value) :: m.buckets.getD index [])
        size_ := m.size_ + 1 }

/-- Member `insert(key, value)`: `resize(buckets.size() * 2)` when the load test fires, then the
lookup and update or link. -/
def insert (m : HashMap K V) (key : K) (value : V) : Option (HashMap K V) :=
  (if m.loadExceeded then m.resize (m.buckets.length * 2) else some m).bind fun m1 =>
    m1.insertAt key value

/-- Member `remove(key)`: the returned flag and the state afterwards. -/
def remove (m : HashMap K V) (key : K) : Option (Bool × HashMap K V) :=
  if m.buckets.length = 0 then none
  else
    let index := m.hasher key % m.buckets.length
    match m.buckets.getD index [] with
    | [] => some (false, m)
    | head :: next =>
      if head.1 = key then
        some (true, { m with buckets := m.buckets.set index next, size_ := decrement m.size_ })
      else
        match unlinkAfter key (head :: next) with
        | some chain =>
          some (true, { m with buckets := m.buckets.set index chain, size_ := decrement m.size_ })
        | none => some (false, m)

/-- Run a sequence of `insert` calls, left to right. -/
def insertAll (m : HashMap K V) : List (K × V) → Option (HashMap K V)
  | [] => some m
  | kv :: rest => (m.insert kv.1 kv.2).bind fun m1 => insertAll m1 rest

/-- Total number of nodes stored in a table. -/
def entryCount (buckets : List (List (K × V))) : Nat :=
  (buckets.map List.length).sum

/-- States reachable from a constructed map (`initial_capacity ≥ 1`) by the public operations
`insert`, `remove` and `resize` (`new_capacity ≥ 1`). -/
inductive Reachable : HashMap K V → Prop
  | construct (initial_capacity : Nat) (max_load_factor : ℚ) (hasher : K → Nat) :
      1 ≤ initial_capacity → Reachable (HashMap.construct initial_capacity max_load_factor hasher)
  | insert {m m' : HashMap K V} (key : K) (value : V) :
      Reachable m → m.insert key value = some m' → Reachable m'
  | remove {m m' : HashMap K V} (key : K) (found : Bool) :
      Reachable m → m.remove key = some (found, m') → Reachable m'
  | resize {m m' : HashMap K V} (new_capacity : Nat) :
      Reachable m → 1 ≤ new_capacity → m.resize new_capacity = some m' → Reachable m'

/-- Home-bucket property of a table read with `n` buckets: every node in the chain of bucket
`i` has `hasher(key) % n = i`. -/
def HomeTable (hasher : K → Nat) (n : Nat) (buckets : List (List (K × V))) : Prop :=
  ∀ i, ∀ e ∈ buckets.getD i [], hasher e.1 % n = i

/-- Invariant of the reachable states: the table has a bucket, no chain holds a key twice, and
the counter is at least the number of stored nodes. -/
structure Inv (m : HashMap K V) : Prop where
  cap_pos : 1 ≤ m.buckets.length
  nodup : ∀ c ∈ m.buckets, (c.map Prod.fst).Nodup
  count_le : entryCount m.buckets ≤ m.size_

end HashMap

/-- Identity hash on naturals (what `std::hash<size_t>` is in common standard libraries). -/
def idHash : Nat → Nat := fun n => n

/-- State of a `HashMap<size_t, int>(1, 1.0f)` after `insert(0, 10)`. -/
def oneEntryMap : HashMap Nat Nat := ⟨[[(0, 10)]], 1, 1, idHash⟩

/-- State of the same map after `insert(0, 10)`, `insert(4, 14)`: the second insert doubled
the table, and both keys hash to bucket 0. -/
def collidingMap : HashMap Nat Nat := ⟨[[(4, 14), (0, 10)], []], 2, 1, idHash⟩

/-- State of the same map after `insert(0, 10)`, `insert(4, 14)`, `insert(8, 18)`. -/
def lossyMap : HashMap Nat Nat := ⟨[[(8, 18), (0, 10)], [], [], []], 3, 1, idHash⟩

/-- State of the same map after the three inserts and then `remove(8)`, `remove(0)`. -/
def drainedMap : HashMap Nat Nat := ⟨[[], [], [], []], 1, 1, idHash⟩

/-- State of a `HashMap<size_t, int>(2, 1.0f)` after `insert(0, 10)`: one more entry fits
without growth. -/
def roomyMap : HashMap Nat Nat := ⟨[[(0, 10)], []], 1, 1, idHash⟩

/-- State of a `HashMap<size_t, int>(10, 0.7f)` after `insert(k, 10 + k)` for `k = 0, ..., 5`;
the `float` nearest to 0.7 is `11744051 / 2 ^ 24`. -/
def tenBucketMap : HashMap Nat Nat :=
  ⟨[[(0, 10)], [(1, 11)], [(2, 12)], [(3, 13)], [(4, 14)], [(5, 15)], [], [], [], []], 6,
    11744051 / 16777216, idHash⟩

/-- The chain with the keys `n - 1, ..., 1, 0`, head first, each with value 0. -/
def countdownChain : Nat → List (Nat × Nat)
  | 0 => []
  | n + 1 => (n, 0) :: countdownChain n

/-- State of a `HashMap<size_t, int, H>(3, 5592409.0f)`, `H` hashing every key to 0, after
`insert(k, 0)` for `k = 0, ..., n - 1` without any growth: all nodes are in bucket 0. -/
def crowdedMap (n : Nat) : HashMap Nat Nat :=
  ⟨[countdownChain n, [], []], n, 5592409, fun _ => 0⟩

/-- Thirteen pairwise distinct keys (with values), two of which, 0 and 32, share a bucket in a
table of 16 and in a table of 32 buckets under the identity hash. -/
def thirteenKeys : List (Nat × Nat) :=
  [(0, 100), (32, 132), (1, 101), (2, 102), (3, 103), (4, 104), (5, 105), (6, 106),
    (7, 107), (8, 108), (9, 109), (10, 110), (11, 111)]

/-! ## Rounding to binary32 -/

theorem bitLengthAux_zero (fuel : Nat) : bitLengthAux fuel 0 = 0 := by
  cases fuel <;> simp [bitLengthAux]

theorem bitLengthAux_spec (fuel n : Nat) (h : n ≤ fuel) :
    n < 2 ^ bitLengthAux fuel n ∧ (0 < n → 2 ^ (bitLengthAux fuel n - 1) ≤ n) := by
  induction fuel generalizing n with
  | zero =>
    have : n = 0 := by omega
    subst this
    simp [bitLengthAux]
  | succ fuel ih =>
    by_cases hn : n = 0
    · subst hn
      simp [bitLengthAux]
    · obtain ⟨hlt, hle⟩ := ih (n / 2) (by omega)
      simp only [bitLengthAux, hn, ↓reduceIte, Nat.add_sub_cancel]
      refine ⟨?_, fun _ => ?_⟩
      · rw [pow_succ]
        omega
      · by_cases hz : n / 2 = 0
        · rw [hz, bitLengthAux_zero]
          simp only [pow_zero]
          omega
        · have hb : bitLengthAux fuel (n / 2) ≠ 0 := by
            intro hb
            rw [hb] at hlt
            simp only [pow_zero] at hlt
            omega
          have h2 := hle (by omega)
          have hp : 2 ^ bitLengthAux fuel (n / 2)
              = 2 * 2 ^ (bitLengthAux fuel (n / 2) - 1) := by
            rw [← pow_succ']
            congr 1
            omega
          rw [hp]
          omega

theorem lt_two_pow_bitLength (n : Nat) : n < 2 ^ bitLength n :=
  (bitLengthAux_spec n n (Nat.le_refl n)).1

theorem two_pow_bitLength_le (n : Nat) (h : 0 < n) : 2 ^ (bitLength n - 1) ≤ n :=
  (bitLengthAux_spec n n (Nat.le_refl n)).2 h

theorem pow2_eq_zpow (z : ℤ) : pow2 z = (2 : ℚ) ^ z := by
  unfold pow2
  split
  · rename_i h
    obtain ⟨n, rfl⟩ := Int.eq_ofNat_of_zero_le h
    simp
  · rename_i h
    obtain ⟨n, rfl⟩ := Int.exists_eq_neg_ofNat (by omega : z ≤ 0)
    simp

theorem pow2_pos (z : ℤ) : 0 < pow2 z := by
  rw [pow2_eq_zpow]
  exact zpow_pos (by norm_num) z

theorem pow2_mul_pow2_neg (z : ℤ) : pow2 (23 - z) * pow2 (z - 23) = 1 := by
  rw [pow2_eq_zpow, pow2_eq_zpow, ← zpow_add₀ (by norm_num : (2 : ℚ) ≠ 0)]
  have : 23 - z + (z - 23) = 0 := by ring
  rw [this, zpow_zero]

/-- The binary exponent is not too large: `2 ^ e ≤ x`. -/
theorem pow2_binaryExponent_le (x : ℚ) (hx : 0 < x) : pow2 (binaryExponent x) ≤ x := by
  unfold binaryExponent
  split
  · assumption
  · have hnum : 0 < x.num := Rat.num_pos.2 hx
    have hn : 0 < x.num.toNat := by omega
    have hcast : ((x.num.toNat : ℕ) : ℚ) = (x.num : ℚ) := by
      have : ((x.num.toNat : ℕ) : ℤ) = x.num := Int.toNat_of_nonneg (le_of_lt hnum)
      exact_mod_cast this
    have hlo := two_pow_bitLength_le x.num.toNat hn
    have hhi := lt_two_pow_bitLength x.den
    have ha : bitLength x.num.toNat ≠ 0 := by
      intro h0
      have := lt_two_pow_bitLength x.num.toNat
      rw [h0] at this
      simp only [pow_zero] at this
      omega
    have he : (bitLength x.num.toNat : ℤ) - (bitLength x.den : ℤ) - 1
        = ((bitLength x.num.toNat - 1 : ℕ) : ℤ) - ((bitLength x.den : ℕ) : ℤ) := by
      omega
    rw [pow2_eq_zpow, he, zpow_sub₀ (by norm_num : (2 : ℚ) ≠ 0), zpow_natCast, zpow_natCast]
    have hden : (0 : ℚ) < (x.den : ℚ) := by exact_mod_cast x.den_pos
    have hlo' : ((2 : ℚ) ^ (bitLength x.num.toNat - 1)) ≤ (x.num : ℚ) := by
      rw [← hcast]
      exact_mod_cast hlo
    have hhi' : (x.den : ℚ) ≤ (2 : ℚ) ^ bitLength x.den := by
      exact_mod_cast le_of_lt hhi
    calc (2 : ℚ) ^ (bitLength x.num.toNat - 1) / (2 : ℚ) ^ bitLength x.den
        ≤ (x.num : ℚ) / (x.den : ℚ) :=
          div_le_div₀ (by exact_mod_cast le_of_lt hnum) hlo' hden hhi'
      _ = x := Rat.num_div_den x

theorem roundHalfEven_le (y : ℚ) : (roundHalfEven y : ℚ) ≤ y + 1 / 2 := by
  have h1 := Int.floor_le y
  have h2 := Int.lt_floor_add_one y
  unfold roundHalfEven
  split_ifs <;> push_cast <;> linarith

theorem roundHalfEven_nonneg (y : ℚ) (hy : 0 ≤ y) : 0 ≤ roundHalfEven y := by
  have h1 : 0 ≤ ⌊y⌋ := Int.floor_nonneg.2 hy
  unfold roundHalfEven
  split_ifs <;> omega

/-- Rounding a non-negative rational to binary32 raises it by at most the factor
`1 + 2 ^ (-24)`. -/
theorem toFloat_le (x : ℚ) (hx : 0 ≤ x) : toFloat x ≤ x * (1 + 1 / 2 ^ 24) := by
  rcases eq_or_lt_of_le hx with h | h
  · subst h
    simp [toFloat]
  · simp only [toFloat, h, ↓reduceIte, roundPos]
    have hp := pow2_pos (binaryExponent x - 23)
    have hq := pow2_pos (23 - binaryExponent x)
    have hone := pow2_mul_pow2_neg (binaryExponent x)
    have hr := roundHalfEven_le (x * pow2 (23 - binaryExponent x))
    have hE := pow2_binaryExponent_le x h
    have hsplit : pow2 (binaryExponent x - 23) = pow2 (binaryExponent x) / 2 ^ 23 := by
      rw [pow2_eq_zpow, pow2_eq_zpow, zpow_sub₀ (by norm_num : (2 : ℚ) ≠ 0)]
      norm_num
    have hulp : pow2 (binaryExponent x - 23) ≤ x / 2 ^ 23 := by
      rw [hsplit]
      exact div_le_div_of_nonneg_right hE (by norm_num)
    calc (roundHalfEven (x * pow2 (23 - binaryExponent x)) : ℚ) * pow2 (binaryExponent x - 23)
        ≤ (x * pow2 (23 - binaryExponent x) + 1 / 2) * pow2 (binaryExponent x - 23) :=
          mul_le_mul_of_nonneg_right hr (le_of_lt hp)
      _ = x * (pow2 (23 - binaryExponent x) * pow2 (binaryExponent x - 23))
            + pow2 (binaryExponent x - 23) / 2 := by ring
      _ = x + pow2 (binaryExponent x - 23) / 2 := by rw [hone, mul_one]
      _ ≤ x + x / 2 ^ 23 / 2 := by linarith
      _ = x * (1 + 1 / 2 ^ 24) := by ring

theorem toFloat_nonneg (x : ℚ) (hx : 0 ≤ x) : 0 ≤ toFloat x := by
  rcases eq_or_lt_of_le hx with h | h
  · subst h
    simp [toFloat]
  · simp only [toFloat, h, ↓reduceIte, roundPos]
    apply mul_nonneg
    · exact_mod_cast roundHalfEven_nonneg _
        (mul_nonneg hx (le_of_lt (pow2_pos _)))
    · exact le_of_lt (pow2_pos _)

/-- The binary exponent is not too small: `x < 2 ^ (e + 1)`. -/
theorem lt_pow2_binaryExponent_succ (x : ℚ) (hx : 0 < x) :
    x < pow2 (binaryExponent x + 1) := by
  unfold binaryExponent
  split
  · have hnum : 0 < x.num := Rat.num_pos.2 hx
    have hcast : ((x.num.toNat : ℕ) : ℚ) = (x.num : ℚ) := by
      have : ((x.num.toNat : ℕ) : ℤ) = x.num := Int.toNat_of_nonneg (le_of_lt hnum)
      exact_mod_cast this
    have hhi := lt_two_pow_bitLength x.num.toNat
    have hlo := two_pow_bitLength_le x.den x.den_pos
    have hb : bitLength x.den ≠ 0 := by
      intro h0
      have := lt_two_pow_bitLength x.den
      rw [h0] at this
      simp only [pow_zero] at this
      have := x.den_pos
      omega
    have he : (bitLength x.num.toNat : ℤ) - (bitLength x.den : ℤ) + 1
        = ((bitLength x.num.toNat : ℕ) : ℤ) - ((bitLength x.den - 1 : ℕ) : ℤ) := by
      omega
    rw [pow2_eq_zpow, he, zpow_sub₀ (by norm_num : (2 : ℚ) ≠ 0), zpow_natCast, zpow_natCast]
    have hden : (0 : ℚ) < (x.den : ℚ) := by exact_mod_cast x.den_pos
    have hhi' : (x.num : ℚ) < (2 : ℚ) ^ bitLength x.num.toNat := by
      rw [← hcast]
      exact_mod_cast hhi
    have hlo' : (2 : ℚ) ^ (bitLength x.den - 1) ≤ (x.den : ℚ) := by
      exact_mod_cast hlo
    have hpos : (0 : ℚ) < (2 : ℚ) ^ (bitLength x.den - 1) := by positivity
    calc x = (x.num : ℚ) / (x.den : ℚ) := (Rat.num_div_den x).symm
      _ < (2 : ℚ) ^ bitLength x.num.toNat / (x.den : ℚ) :=
          div_lt_div_of_pos_right hhi' hden
      _ ≤ (2 : ℚ) ^ bitLength x.num.toNat / (2 : ℚ) ^ (bitLength x.den - 1) :=
          div_le_div_of_nonneg_left (by positivity) hpos hlo'
  · rename_i h
    have : (bitLength x.num.toNat : ℤ) - (bitLength x.den : ℤ) - 1 + 1
        = (bitLength x.num.toNat : ℤ) - (bitLength x.den : ℤ) := by ring
    rw [this]
    exact lt_of_not_le h

theorem le_roundHalfEven (y : ℚ) : y - 1 / 2 ≤ (roundHalfEven y : ℚ) := by
  have h1 := Int.floor_le y
  have h2 := Int.lt_floor_add_one y
  unfold roundHalfEven
  split_ifs <;> push_cast <;> linarith

/-- Rounding a positive rational to binary32 moves it by at most half a unit in the last
place, `2 ^ (e - 24)`. -/
theorem abs_toFloat_sub_le (x : ℚ) (hx : 0 < x) :
    |toFloat x - x| ≤ pow2 (binaryExponent x - 23) / 2 := by
  simp only [toFloat, hx, ↓reduceIte, roundPos]
  have hp := pow2_pos (binaryExponent x - 23)
  have hone := pow2_mul_pow2_neg (binaryExponent x)
  have hr := roundHalfEven_le (x * pow2 (23 - binaryExponent x))
  have hl := le_roundHalfEven (x * pow2 (23 - binaryExponent x))
  have hx' : x = x * pow2 (23 - binaryExponent x) * pow2 (binaryExponent x - 23) := by
    rw [mul_assoc, hone, mul_one]
  rw [abs_le]
  constructor
  · have := mul_le_mul_of_nonneg_right hl (le_of_lt hp)
    nlinarith
  · have := mul_le_mul_of_nonneg_right hr (le_of_lt hp)
    nlinarith

/-- Sample values: `0.7` rounds to `0.7f = 11744051 / 2 ^ 24`; `2 ^ 24 + 1` is a tie and rounds
to the even significand `2 ^ 24`; `2 ^ 24 + 3` is a tie and rounds up to `2 ^ 24 + 4`; `1 / 3`
rounds to `11184811 / 2 ^ 25`. -/
theorem toFloat_samples :
    toFloat (7 / 10) = 11744051 / 16777216 ∧ toFloat 16777217 = 16777216 ∧
      toFloat 16777219 = 16777220 ∧ toFloat (1 / 3) = 11184811 / 33554432 ∧
      toFloat (3 / 4) = 3 / 4 := by
  decide!

/-! ## Lists: reading a slot after writing one -/

theorem getD_set_self {α : Type} (l : List α) (i : Nat) (x d : α) (h : i < l.length) :
    (l.set i x).getD i d = x := by
  induction l generalizing i with
  | nil => simp at h
  | cons a t ih =>
    cases i with
    | zero => simp
    | succ i => simpa using ih i (by simpa using h)

theorem getD_set_of_ne {α : Type} (l : List α) (i j : Nat) (x d : α) (h : i ≠ j) :
    (l.set i x).getD j d = l.getD j d := by
  induction l generalizing i j with
  | nil => simp
  | cons a t ih =>
    cases i with
    | zero =>
      cases j with
      | zero => exact absurd rfl h
      | succ j => simp
    | succ i =>
      cases j with
      | zero => simp
      | succ j => simpa using ih i j (fun e => h (by rw [e]))

theorem getD_mem_or_nil {α : Type} (l : List (List α)) (i : Nat) :
    l.getD i [] ∈ l ∨ l.getD i [] = [] := by
  induction l generalizing i with
  | nil => right; simp
  | cons a t ih =>
    cases i with
    | zero => left; simp
    | succ i =>
      rcases ih i with h | h
      · left; simp only [List.getD_cons_succ]; exact List.mem_cons_of_mem _ h
      · right; simpa using h

theorem mem_set_cases {α : Type} (l : List α) (i : Nat) (x y : α) (h : y ∈ l.set i x) :
    y = x ∨ y ∈ l := by
  induction l generalizing i with
  | nil => simp at h
  | cons a t ih =>
    cases i with
    | zero =>
      simp only [List.set_cons_zero, List.mem_cons] at h
      rcases h with h | h
      · exact Or.inl h
      · exact Or.inr (List.mem_cons_of_mem _ h)
    | succ i =>
      simp only [List.set_cons_succ, List.mem_cons] at h
      rcases h with h | h
      · exact Or.inr (by rw [h]; exact List.mem_cons_self _ _)
      · rcases ih i h with h1 | h1
        · exact Or.inl h1
        · exact Or.inr (List.mem_cons_of_mem _ h1)

namespace HashMap

variable {K V : Type}

theorem entryCount_set (l : List (List (K × V))) (i : Nat) (c : List (K × V))
    (h : i < l.length) :
    entryCount (l.set i c) + (l.getD i []).length = entryCount l + c.length := by
  induction l generalizing i with
  | nil => simp at h
  | cons a t ih =>
    cases i with
    | zero => simp [entryCount]; omega
    | succ i =>
      have := ih i (by simpa using h)
      simp only [entryCount, List.set_cons_succ, List.map_cons, List.sum_cons,
        List.getD_cons_succ] at this ⊢
      omega

theorem entryCount_replicate (n : Nat) :
    entryCount (List.replicate n ([] : List (K × V))) = 0 := by
  induction n with
  | zero => rfl
  | succ n ih => simp [entryCount, List.replicate_succ]

/-! ## `resize` -/

theorem relinkChain_spec (hasher : K → Nat) (n : Nat) (hn : 1 ≤ n) (chain : List (K × V))
    (nb : List (List (K × V))) (hlen : nb.length = n) (h1 : ∀ c ∈ nb, c.length ≤ 1) :
    ∃ nb', relinkChain hasher n chain nb = some nb' ∧ nb'.length = n ∧
      (∀ c ∈ nb', c.length ≤ 1) ∧ entryCount nb' ≤ entryCount nb + chain.length := by
  induction chain generalizing nb with
  | nil => exact ⟨nb, rfl, hlen, h1, by simp⟩
  | cons node next ih =>
    have hn0 : n ≠ 0 := by omega
    have hi : hasher node.1 % n < nb.length := by
      rw [hlen]; exact Nat.mod_lt _ (by omega)
    obtain ⟨nb', e, hl, hc, hcount⟩ := ih (nb.set (hasher node.1 % n) [node])
      (by simp [hlen])
      (by
        intro c hmem
        rcases mem_set_cases _ _ _ _ hmem with h | h
        · simp [h]
        · exact h1 c h)
    refine ⟨nb', ?_, hl, hc, ?_⟩
    · simp [relinkChain, hn0, e]
    · have := entryCount_set nb (hasher node.1 % n) [node] hi
      simp only [List.length_cons, List.length_nil] at this ⊢
      omega

theorem relinkBuckets_spec (hasher : K → Nat) (n : Nat) (hn : 1 ≤ n)
    (buckets nb : List (List (K × V))) (hlen : nb.length = n) (h1 : ∀ c ∈ nb, c.length ≤ 1) :
    ∃ nb', relinkBuckets hasher n buckets nb = some nb' ∧ nb'.length = n ∧
      (∀ c ∈ nb', c.length ≤ 1) ∧ entryCount nb' ≤ entryCount nb + entryCount buckets := by
  induction buckets generalizing nb with
  | nil => exact ⟨nb, rfl, hlen, h1, by simp⟩
  | cons bucket rest ih =>
    obtain ⟨nb1, e1, hl1, hc1, hcount1⟩ := relinkChain_spec hasher n hn bucket nb hlen h1
    obtain ⟨nb2, e2, hl2, hc2, hcount2⟩ := ih nb1 hl1 hc1
    refine ⟨nb2, ?_, hl2, hc2, ?_⟩
    · simp [relinkBuckets, e1, e2]
    · simp only [entryCount, List.map_cons, List.sum_cons] at hcount1 hcount2 ⊢
      omega

/-- With `new_capacity ≥ 1`, `resize` returns: the new table has `new_capacity` buckets, every
chain in it has at most one node, it stores no more nodes than before, and `size_`,
`max_load_factor_` and `hasher` are untouched. -/
theorem resize_spec (m : HashMap K V) (n : Nat) (hn : 1 ≤ n) :
    ∃ m', m.resize n = some m' ∧ m'.buckets.length = n ∧ (∀ c ∈ m'.buckets, c.length ≤ 1) ∧
      entryCount m'.buckets ≤ entryCount m.buckets ∧ m'.size_ = m.size_ ∧
      m'.max_load_factor_ = m.max_load_factor_ ∧ m'.hasher = m.hasher := by
  obtain ⟨nb, e, hl, hc, hcount⟩ := relinkBuckets_spec m.hasher n hn m.buckets
    (List.replicate n []) (by simp) (by
      intro c hmem
      rw [List.eq_of_mem_replicate hmem]
      simp)
  refine ⟨{ m with buckets := nb }, ?_, hl, hc, ?_, rfl, rfl, rfl⟩
  · simp [resize, e]
  · rw [entryCount_replicate] at hcount
    simpa using hcount

/-- On the default configuration (16 buckets, load factor 0.75) the load test of `insert`
does not fire while the map counts at most two entries. -/
theorem loadExceeded_default_small (m : HashMap K V) (hlen : m.buckets.length = 16)
    (hlf : m.max_load_factor_ = 3 / 4) (hs : m.size_ ≤ 2) : m.loadExceeded = false := by
  have h3 : m.size_ = 0 ∨ m.size_ = 1 ∨ m.size_ = 2 := by omega
  simp only [loadExceeded, hlen, hlf]
  rcases h3 with h | h | h <;> rw [h] <;> decide!

theorem nodup_keys_of_length_le_one (chain : List (K × V)) (h : chain.length ≤ 1) :
    (chain.map Prod.fst).Nodup := by
  cases chain with
  | nil => simp
  | cons a t =>
    cases t with
    | nil => simp
    | cons b u => simp at h

/-- The growth step of `insert` on a table with at least one bucket: it returns, the table
it leaves has `buckets.size()` or twice that many buckets, and the invariant survives. -/
theorem growStep_spec (m : HashMap K V) (h : 1 ≤ m.buckets.length) :
    ∃ m1, (if m.loadExceeded then m.resize (m.buckets.length * 2) else some m) = some m1 ∧
      m1.buckets.length = (if m.loadExceeded then m.buckets.length * 2 else m.buckets.length) ∧
      m1.size_ = m.size_ ∧ m1.max_load_factor_ = m.max_load_factor_ ∧ m1.hasher = m.hasher ∧
      entryCount m1.buckets ≤ entryCount m.buckets ∧
      ((∀ c ∈ m.buckets, (c.map Prod.fst).Nodup) →
        ∀ c ∈ m1.buckets, (c.map Prod.fst).Nodup) := by
  by_cases hl : m.loadExceeded = true
  · obtain ⟨m1, e, hlen, hc, hcount, hs, hlf, hh⟩ :=
      resize_spec m (m.buckets.length * 2) (by omega)
    refine ⟨m1, by simp only [hl, ↓reduceIte, e], by simp only [hl, ↓reduceIte, hlen],
      hs, hlf, hh, hcount, ?_⟩
    intro _ c hmem
    exact nodup_keys_of_length_le_one c (hc c hmem)
  · have hl' : m.loadExceeded = false := by simpa using hl
    exact ⟨m, by simp [hl'], by simp [hl'], rfl, rfl, rfl, le_refl _, fun hnd => hnd⟩

theorem inv_construct (initial_capacity : Nat) (max_load_factor : ℚ) (hasher : K → Nat)
    (h : 1 ≤ initial_capacity) :
    Inv (construct initial_capacity max_load_factor hasher : HashMap K V) where
  cap_pos := by simpa [construct] using h
  nodup := by
    intro c hmem
    simp only [construct] at hmem
    rw [List.eq_of_mem_replicate hmem]
    simp
  count_le := by simp [construct, entryCount_replicate]

theorem inv_resize (m m' : HashMap K V) (n : Nat) (hinv : Inv m) (hn : 1 ≤ n)
    (e : m.resize n = some m') : Inv m' := by
  obtain ⟨m1, e1, hlen, hc, hcount, hs, _, _⟩ := resize_spec m n hn
  rw [e] at e1
  cases e1
  exact ⟨by omega, fun c hmem => nodup_keys_of_length_le_one c (hc c hmem),
    by have := hinv.count_le; omega⟩

/-! ## Home buckets and the origin of the nodes of a resized table -/

theorem mem_getD_of_mem {α : Type} (l : List (List α)) (c : List α) (h : c ∈ l) :
    ∃ i, l.getD i [] = c := by
  induction l with
  | nil => simp at h
  | cons a t ih =>
    rcases List.mem_cons.1 h with h | h
    · exact ⟨0, by simp [h]⟩
    · obtain ⟨i, hi⟩ := ih h
      exact ⟨i + 1, by simpa using hi⟩

theorem homeTable_set (hasher : K → Nat) (n : Nat) (l : List (List (K × V))) (idx : Nat)
    (c : List (K × V)) (hidx : idx < l.length) (hl : HomeTable hasher n l)
    (hc : ∀ e ∈ c, hasher e.1 % n = idx) : HomeTable hasher n (l.set idx c) := by
  intro i e he
  by_cases h : idx = i
  · subst h
    rw [getD_set_self _ _ _ _ hidx] at he
    exact hc e he
  · rw [getD_set_of_ne _ _ _ _ _ h] at he
    exact hl i e he

theorem homeTable_replicate (hasher : K → Nat) (n k : Nat) :
    HomeTable hasher n (List.replicate k ([] : List (K × V))) := by
  intro i e he
  rcases getD_mem_or_nil (List.replicate k ([] : List (K × V))) i with hm | hm
  · rw [List.eq_of_mem_replicate hm] at he
    simp at he
  · rw [hm] at he
    simp at he

theorem relinkChain_home (hasher : K → Nat) (n : Nat) (hn : 1 ≤ n) (chain : List (K × V))
    (nb nb' : List (List (K × V))) (hlen : nb.length = n) (hh : HomeTable hasher n nb)
    (e : relinkChain hasher n chain nb = some nb') : HomeTable hasher n nb' := by
  induction chain generalizing nb with
  | nil =>
    simp only [relinkChain, Option.some.injEq] at e
    rw [← e]; exact hh
  | cons node next ih =>
    have hn0 : n ≠ 0 := by omega
    have hi : hasher node.1 % n < nb.length := by
      rw [hlen]; exact Nat.mod_lt _ (by omega)
    simp only [relinkChain, hn0, ↓reduceIte] at e
    refine ih (nb.set (hasher node.1 % n) [node]) (by simp [hlen]) ?_ e
    apply homeTable_set hasher n nb _ _ hi hh
    intro x hx
    rw [List.mem_singleton.1 hx]

theorem relinkChain_origin (hasher : K → Nat) (n : Nat) (chain : List (K × V))
    (nb nb' : List (List (K × V))) (e : relinkChain hasher n chain nb = some nb') :
    ∀ c ∈ nb', ∀ x ∈ c, x ∈ chain ∨ ∃ c0 ∈ nb, x ∈ c0 := by
  induction chain generalizing nb with
  | nil =>
    simp only [relinkChain, Option.some.injEq] at e
    intro c hc x hx
    exact Or.inr ⟨c, by rw [e]; exact hc, hx⟩
  | cons node next ih =>
    by_cases hn0 : n = 0
    · simp [relinkChain, hn0] at e
    · simp only [relinkChain, hn0, ↓reduceIte] at e
      intro c hc x hx
      rcases ih _ e c hc x hx with h | ⟨c0, hc0, hx0⟩
      · exact Or.inl (List.mem_cons_of_mem _ h)
      · rcases mem_set_cases _ _ _ _ hc0 with h1 | h1
        · subst h1
          rw [List.mem_singleton.1 hx0]
          exact Or.inl (List.mem_cons_self _ _)
        · exact Or.inr ⟨c0, h1, hx0⟩

theorem relinkChain_length (hasher : K → Nat) (n : Nat) (chain : List (K × V))
    (nb nb' : List (List (K × V))) (e : relinkChain hasher n chain nb = some nb') :
    nb'.length = nb.length := by
  induction chain generalizing nb with
  | nil =>
    simp only [relinkChain, Option.some.injEq] at e
    rw [e]
  | cons node next ih =>
    by_cases hn0 : n = 0
    · simp [relinkChain, hn0] at e
    · simp only [relinkChain, hn0, ↓reduceIte] at e
      rw [ih _ e, List.length_set]

theorem relinkBuckets_home (hasher : K → Nat) (n : Nat) (hn : 1 ≤ n)
    (buckets nb nb' : List (List (K × V))) (hlen : nb.length = n) (hh : HomeTable hasher n nb)
    (e : relinkBuckets hasher n buckets nb = some nb') : HomeTable hasher n nb' := by
  induction buckets generalizing nb with
  | nil =>
    simp only [relinkBuckets, Option.some.injEq] at e
    rw [← e]; exact hh
  | cons bucket rest ih =>
    cases e1 : relinkChain hasher n bucket nb with
    | none => simp [relinkBuckets, e1] at e
    | some nb1 =>
      simp only [relinkBuckets, e1, Option.some_bind] at e
      exact ih nb1 ((relinkChain_length hasher n bucket nb nb1 e1).trans hlen)
        (relinkChain_home hasher n hn bucket nb nb1 hlen hh e1) e

theorem relinkBuckets_origin (hasher : K → Nat) (n : Nat)
    (buckets nb nb' : List (List (K × V)))
    (e : relinkBuckets hasher n buckets nb = some nb') :
    ∀ c ∈ nb', ∀ x ∈ c, (∃ b ∈ buckets, x ∈ b) ∨ ∃ c0 ∈ nb, x ∈ c0 := by
  induction buckets generalizing nb with
  | nil =>
    simp only [relinkBuckets, Option.some.injEq] at e
    intro c hc x hx
    exact Or.inr ⟨c, by rw [e]; exact hc, hx⟩
  | cons bucket rest ih =>
    cases e1 : relinkChain hasher n bucket nb with
    | none => simp [relinkBuckets, e1] at e
    | some nb1 =>
      simp only [relinkBuckets, e1, Option.some_bind] at e
      intro c hc x hx
      rcases ih nb1 e c hc x hx with ⟨b, hb, hxb⟩ | ⟨c0, hc0, hx0⟩
      · exact Or.inl ⟨b, List.mem_cons_of_mem _ hb, hxb⟩
      · rcases relinkChain_origin hasher n bucket nb nb1 e1 c0 hc0 x hx0 with h | h
        · exact Or.inl ⟨bucket, List.mem_cons_self _ _, h⟩
        · exact Or.inr h

/-- The table `resize` leaves satisfies the home-bucket property for its new length. -/
theorem resize_home (m m' : HashMap K V) (n : Nat) (hn : 1 ≤ n) (e : m.resize n = some m') :
    HomeTable m'.hasher m'.buckets.length m'.buckets := by
  simp only [resize, Option.map_eq_some'] at e
  obtain ⟨nb, enb, rfl⟩ := e
  have hlen : nb.length = n := by
    obtain ⟨nb1, e1, hl1, _⟩ := relinkBuckets_spec m.hasher n hn m.buckets
      (List.replicate n []) (by simp) (by
        intro c hmem
        rw [List.eq_of_mem_replicate hmem]
        simp)
    rw [enb] at e1
    cases e1
    exact hl1
  simp only [hlen]
  exact relinkBuckets_home m.hasher n hn m.buckets _ nb (by simp)
    (homeTable_replicate m.hasher n n) enb

/-- Every node of the table `resize` leaves is a node of the table before the call. -/
theorem resize_origin (m m' : HashMap K V) (n : Nat) (e : m.resize n = some m') :
    ∀ c ∈ m'.buckets, ∀ x ∈ c, ∃ b ∈ m.buckets, x ∈ b := by
  simp only [resize, Option.map_eq_some'] at e
  obtain ⟨nb, enb, rfl⟩ := e
  intro c hc x hx
  rcases relinkBuckets_origin m.hasher n m.buckets _ nb enb c hc x hx with h | ⟨c0, hc0, hx0⟩
  · exact h
  · rw [List.eq_of_mem_replicate hc0] at hx0
    simp at hx0

/-- No key twice in the whole table, from the home-bucket property (read with any offset) and
the absence of repeated keys inside each chain. -/
theorem nodup_keys_flatten (hasher : K → Nat) (n : Nat) (l : List (List (K × V)))
    (start : Nat) (hhome : ∀ i, ∀ e ∈ l.getD i [], hasher e.1 % n = start + i)
    (hnd : ∀ c ∈ l, (c.map Prod.fst).Nodup) : ((l.flatten).map Prod.fst).Nodup := by
  induction l generalizing start with
  | nil => simp
  | cons c rest ih =>
    rw [List.flatten_cons, List.map_append, List.nodup_append]
    refine ⟨hnd c (List.mem_cons_self _ _), ?_, ?_⟩
    · apply ih (start + 1)
      · intro i e he
        have := hhome (i + 1) e (by simpa using he)
        omega
      · intro c' hc'
        exact hnd c' (List.mem_cons_of_mem _ hc')
    · intro k hk1 hk2
      obtain ⟨e1, he1, hk1'⟩ := List.mem_map.1 hk1
      obtain ⟨e2, he2, hk2'⟩ := List.mem_map.1 hk2
      obtain ⟨c', hc', he2'⟩ := List.mem_flatten.1 he2
      obtain ⟨i, hi⟩ := mem_getD_of_mem rest c' hc'
      have h1 := hhome 0 e1 (by simpa using he1)
      have h2 := hhome (i + 1) e2 (by
        simp only [List.getD_cons_succ]
        rw [hi]; exact he2')
      rw [hk1'] at h1
      rw [hk2'] at h2
      omega

/-- C19: shape of the table after `resize`.  On every map and for `new_capacity ≥ 1`, `resize`
returns; every chain of the new table has at most one node, each such node is a node (same key
and value) of a chain of the old table, and `size()` is what it was. -/
theorem resize_shape (m : HashMap K V) (new_capacity : Nat) (hn : 1 ≤ new_capacity) :
    ∃ m', m.resize new_capacity = some m' ∧ (∀ c ∈ m'.buckets, c.length ≤ 1) ∧
      (∀ c ∈ m'.buckets, ∀ x ∈ c, ∃ b ∈ m.buckets, x ∈ b) ∧ m'.size = m.size := by
  obtain ⟨m', e, _, hc, _, hs, _⟩ := resize_spec m new_capacity hn
  exact ⟨m', e, hc, resize_origin m m' new_capacity e, hs⟩

/-! ## Chains -/

variable [DecidableEq K]

theorem findInChain_eq_none_iff (key : K) (chain : List (K × V)) :
    findInChain key chain = none ↔ key ∉ chain.map Prod.fst := by
  induction chain with
  | nil => simp [findInChain]
  | cons node next ih =>
    by_cases h : node.1 = key
    · simp [findInChain, h]
    · have h' : ¬ key = node.1 := fun e => h e.symm
      simp [findInChain, h, h', ih]

theorem updateChain_eq_none_iff (key : K) (value : V) (chain : List (K × V)) :
    updateChain key value chain = none ↔ findInChain key chain = none := by
  induction chain with
  | nil => simp [updateChain, findInChain]
  | cons node next ih =>
    by_cases h : node.1 = key
    · simp [updateChain, findInChain, h]
    · simp [updateChain, findInChain, h, ih]

theorem findInChain_of_updateChain (key : K) (value : V) (chain chain' : List (K × V))
    (h : updateChain key value chain = some chain') : findInChain key chain' = some value := by
  induction chain generalizing chain' with
  | nil => simp [updateChain] at h
  | cons node next ih =>
    by_cases hk : node.1 = key
    · simp only [updateChain, hk, if_true, Option.some.injEq] at h
      subst h
      simp [findInChain]
    · simp only [updateChain, hk, if_false, Option.map_eq_some'] at h
      obtain ⟨c, hc, rfl⟩ := h
      simp [findInChain, hk, ih c hc]

theorem findInChain_updateChain_of_ne (key other : K) (value : V) (chain chain' : List (K × V))
    (hne : other ≠ key) (h : updateChain key value chain = some chain') :
    findInChain other chain' = findInChain other chain := by
  induction chain generalizing chain' with
  | nil => simp [updateChain] at h
  | cons node next ih =>
    by_cases hk : node.1 = key
    · simp only [updateChain, hk, if_true, Option.some.injEq] at h
      subst h
      have : ¬ key = other := fun e => hne e.symm
      simp [findInChain, hk, this]
    · simp only [updateChain, hk, if_false, Option.map_eq_some'] at h
      obtain ⟨c, hc, rfl⟩ := h
      simp [findInChain, ih c hc]

theorem updateChain_keys (key : K) (value : V) (chain chain' : List (K × V))
    (h : updateChain key value chain = some chain') :
    chain'.map Prod.fst = chain.map Prod.fst := by
  induction chain generalizing chain' with
  | nil => simp [updateChain] at h
  | cons node next ih =>
    by_cases hk : node.1 = key
    · simp only [updateChain, hk, if_true, Option.some.injEq] at h
      subst h
      simp [hk]
    · simp only [updateChain, hk, if_false, Option.map_eq_some'] at h
      obtain ⟨c, hc, rfl⟩ := h
      simp [ih c hc]

theorem unlinkAfter_eq (key : K) (current : K × V) (next : List (K × V)) :
    unlinkAfter key (current :: next) =
      if (findInChain key next).isSome then some (current :: dropKey key next) else none := by
  induction next generalizing current with
  | nil => simp [unlinkAfter, findInChain]
  | cons node rest ih =>
    by_cases hk : node.1 = key
    · simp [unlinkAfter, findInChain, dropKey, hk]
    · simp only [unlinkAfter, findInChain, dropKey, hk, if_false, ih node]
      split <;> simp

theorem findInChain_dropKey_self (key : K) (chain : List (K × V))
    (hnd : (chain.map Prod.fst).Nodup) : findInChain key (dropKey key chain) = none := by
  induction chain with
  | nil => simp [dropKey, findInChain]
  | cons node next ih =>
    simp only [List.map_cons, List.nodup_cons] at hnd
    by_cases hk : node.1 = key
    · simp only [dropKey, hk, if_true]
      rw [findInChain_eq_none_iff, ← hk]
      exact hnd.1
    · simp [dropKey, findInChain, hk, ih hnd.2]

theorem findInChain_dropKey_of_ne (key other : K) (chain : List (K × V)) (hne : other ≠ key) :
    findInChain other (dropKey key chain) = findInChain other chain := by
  induction chain with
  | nil => simp [dropKey]
  | cons node next ih =>
    by_cases hk : node.1 = key
    · have : ¬ key = other := fun e => hne e.symm
      simp [dropKey, findInChain, hk, this]
    · simp [dropKey, findInChain, hk, ih]

theorem length_dropKey (key : K) (chain : List (K × V))
    (h : (findInChain key chain).isSome) : (dropKey key chain).length + 1 = chain.length := by
  induction chain with
  | nil => simp [findInChain] at h
  | cons node next ih =>
    by_cases hk : node.1 = key
    · simp [dropKey, hk]
    · simp only [findInChain, hk, if_false] at h
      simp [dropKey, hk, ih h]

theorem dropKey_keys_sublist (key : K) (chain : List (K × V)) :
    ((dropKey key chain).map Prod.fst).Sublist (chain.map Prod.fst) := by
  induction chain with
  | nil => simp [dropKey]
  | cons node next ih =>
    by_cases hk : node.1 = key
    · simp [dropKey, hk]
    · simp only [dropKey, hk, if_false, List.map_cons]
      exact ih.cons₂ _

/-! ## `insert` after the growth step -/

theorem insertAt_cases (m : HashMap K V) (key : K) (value : V) (h : 1 ≤ m.buckets.length) :
    (findInChain key (m.buckets.getD (m.hasher key % m.buckets.length) []) = none ∧
      m.insertAt key value = some { m with
        buckets := m.buckets.set (m.hasher key % m.buckets.length)
          ((key, value) :: m.buckets.getD (m.hasher key % m.buckets.length) [])
        size_ := m.size_ + 1 }) ∨
    (∃ chain, updateChain key value (m.buckets.getD (m.hasher key % m.buckets.length) [])
        = some chain ∧
      m.insertAt key value = some { m with
        buckets := m.buckets.set (m.hasher key % m.buckets.length) chain }) := by
  have h0 : m.buckets.length ≠ 0 := by omega
  cases hu : updateChain key value (m.buckets.getD (m.hasher key % m.buckets.length) []) with
  | none =>
    left
    refine ⟨(updateChain_eq_none_iff _ _ _).1 hu, ?_⟩
    simp only [insertAt, h0, ↓reduceIte, hu]
  | some chain =>
    right
    exact ⟨chain, rfl, by simp only [insertAt, h0, ↓reduceIte, hu]⟩

theorem get_set_self (m : HashMap K V) (key : K) (chain : List (K × V)) (size : Nat)
    (h : 1 ≤ m.buckets.length) :
    get { m with
        buckets := m.buckets.set (m.hasher key % m.buckets.length) chain, size_ := size } key
      = some (findInChain key chain) := by
  have h0 : m.buckets.length ≠ 0 := by omega
  have hi : m.hasher key % m.buckets.length < m.buckets.length := Nat.mod_lt _ (by omega)
  simp only [get, List.length_set, h0, ↓reduceIte, getD_set_self _ _ _ _ hi]

theorem get_set_other (m : HashMap K V) (key other : K) (chain : List (K × V)) (size : Nat)
    (h : 1 ≤ m.buckets.length)
    (hc : findInChain other chain
      = findInChain other (m.buckets.getD (m.hasher key % m.buckets.length) [])) :
    get { m with
        buckets := m.buckets.set (m.hasher key % m.buckets.length) chain, size_ := size } other
      = m.get other := by
  have h0 : m.buckets.length ≠ 0 := by omega
  have hi : m.hasher key % m.buckets.length < m.buckets.length := Nat.mod_lt _ (by omega)
  by_cases hidx : m.hasher key % m.buckets.length = m.hasher other % m.buckets.length
  · simp only [get, List.length_set, h0, if_false]
    rw [← hidx, getD_set_self _ _ _ _ hi, hc]
  · simp only [get, List.length_set, h0, if_false]
    rw [getD_set_of_ne _ _ _ _ _ hidx]

/-- What `insertAt` does on a table with at least one bucket. -/
theorem insertAt_spec (m : HashMap K V) (key : K) (value : V) (h : 1 ≤ m.buckets.length) :
    ∃ m', m.insertAt key value = some m' ∧ m'.buckets.length = m.buckets.length ∧
      m'.hasher = m.hasher ∧ m'.max_load_factor_ = m.max_load_factor_ ∧
      m'.get key = some (some value) ∧
      (∀ other, other ≠ key → m'.get other = m.get other) ∧
      (m.get key = some none →
        m'.size_ = m.size_ + 1 ∧ entryCount m'.buckets = entryCount m.buckets + 1) ∧
      (m.get key ≠ some none →
        m'.size_ = m.size_ ∧ entryCount m'.buckets = entryCount m.buckets) ∧
      ((∀ c ∈ m.buckets, (c.map Prod.fst).Nodup) →
        ∀ c ∈ m'.buckets, (c.map Prod.fst).Nodup) := by
  have h0 : m.buckets.length ≠ 0 := by omega
  have hi : m.hasher key % m.buckets.length < m.buckets.length := Nat.mod_lt _ (by omega)
  have hget : m.get key
      = some (findInChain key (m.buckets.getD (m.hasher key % m.buckets.length) [])) := by
    simp only [get, h0, ↓reduceIte]
  rcases insertAt_cases m key value h with ⟨hnone, e⟩ | ⟨chain, hu, e⟩
  · refine ⟨_, e, by simp, rfl, rfl, ?_, ?_, ?_, ?_, ?_⟩
    · rw [get_set_self m key _ _ h]; simp [findInChain]
    · intro other hne
      apply get_set_other m key other _ _ h
      have : ¬ key = other := fun e => hne e.symm
      simp [findInChain, this]
    · intro _
      refine ⟨rfl, ?_⟩
      have := entryCount_set m.buckets (m.hasher key % m.buckets.length)
        ((key, value) :: m.buckets.getD (m.hasher key % m.buckets.length) []) hi
      simp only [List.length_cons] at this ⊢
      omega
    · intro hne
      exact absurd (by rw [hget, hnone]) hne
    · intro hnd c hmem
      rcases mem_set_cases _ _ _ _ hmem with hc | hc
      · subst hc
        simp only [List.map_cons, List.nodup_cons]
        refine ⟨(findInChain_eq_none_iff _ _).1 hnone, ?_⟩
        rcases getD_mem_or_nil m.buckets (m.hasher key % m.buckets.length) with hm | hm
        · exact hnd _ hm
        · rw [hm]; simp
      · exact hnd c hc
  · have hkeys := updateChain_keys key value _ chain hu
    have hsome : findInChain key (m.buckets.getD (m.hasher key % m.buckets.length) []) ≠ none := by
      intro hn
      rw [(updateChain_eq_none_iff key value _).2 hn] at hu
      exact Option.noConfusion hu
    refine ⟨_, e, by simp, rfl, rfl, ?_, ?_, ?_, ?_, ?_⟩
    · have := get_set_self m key chain m.size_ h
      rw [findInChain_of_updateChain key value _ chain hu] at this
      exact this
    · intro other hne
      exact get_set_other m key other chain m.size_ h
        (findInChain_updateChain_of_ne key other value _ chain hne hu)
    · intro hn
      rw [hget] at hn
      exact absurd (Option.some.inj hn) hsome
    · intro _
      refine ⟨rfl, ?_⟩
      have := entryCount_set m.buckets (m.hasher key % m.buckets.length) chain hi
      have hlen : chain.length
          = (m.buckets.getD (m.hasher key % m.buckets.length) []).length := by
        have := congrArg List.length hkeys
        simpa using this
      simp only at this ⊢
      omega
    · intro hnd c hmem
      rcases mem_set_cases _ _ _ _ hmem with hc | hc
      · subst hc
        rw [hkeys]
        rcases getD_mem_or_nil m.buckets (m.hasher key % m.buckets.length) with hm | hm
        · exact hnd _ hm
        · rw [hm]; simp
      · exact hnd c hc

/-! ## `insert` -/

theorem insert_of_not_loadExceeded (m : HashMap K V) (key : K) (value : V)
    (h : m.loadExceeded = false) : m.insert key value = m.insertAt key value := by
  simp [insert, h]

/-! ## `remove` -/

theorem remove_eq (m : HashMap K V) (key : K) (h : 1 ≤ m.buckets.length) :
    m.remove key = some
      (if (findInChain key (m.buckets.getD (m.hasher key % m.buckets.length) [])).isSome then
        (true, { m with
          buckets := m.buckets.set (m.hasher key % m.buckets.length)
            (dropKey key (m.buckets.getD (m.hasher key % m.buckets.length) []))
          size_ := decrement m.size_ })
      else (false, m)) := by
  have h0 : m.buckets.length ≠ 0 := by omega
  simp only [remove, h0, ↓reduceIte]
  generalize m.buckets.getD (m.hasher key % m.buckets.length) [] = chain
  cases chain with
  | nil => simp [findInChain]
  | cons head next =>
    by_cases hk : head.1 = key
    · simp [findInChain, dropKey, hk]
    · simp only [hk, ↓reduceIte, unlinkAfter_eq, findInChain, dropKey]
      by_cases hs : (findInChain key next).isSome = true
      · simp [hs]
      · simp [hs]

/-- Removing a key that `get` does not find: `false`, and the state is the one before. -/
theorem remove_absent (m : HashMap K V) (key : K) (hg : m.get key = some none) :
    m.remove key = some (false, m) := by
  have h1 : 1 ≤ m.buckets.length := by
    by_contra hc
    have : m.buckets.length = 0 := by omega
    simp [get, this] at hg
  have h0 : m.buckets.length ≠ 0 := by omega
  simp only [get, h0, ↓reduceIte, Option.some.injEq] at hg
  rw [remove_eq m key h1, hg]
  simp

/-- Removing a key that `get` finds. -/
theorem remove_present (m : HashMap K V) (key : K) (value : V)
    (hg : m.get key = some (some value)) :
    ∃ m', m.remove key = some (true, m') ∧ m'.size_ = decrement m.size_ ∧
      m'.buckets.length = m.buckets.length ∧ m'.hasher = m.hasher ∧
      m'.max_load_factor_ = m.max_load_factor_ ∧
      (∀ other, other ≠ key → m'.get other = m.get other) ∧
      entryCount m'.buckets + 1 = entryCount m.buckets ∧
      ((∀ c ∈ m.buckets, (c.map Prod.fst).Nodup) →
        (∀ c ∈ m'.buckets, (c.map Prod.fst).Nodup) ∧ m'.get key = some none) := by
  have h1 : 1 ≤ m.buckets.length := by
    by_contra hc
    have : m.buckets.length = 0 := by omega
    simp [get, this] at hg
  have h0 : m.buckets.length ≠ 0 := by omega
  have hi : m.hasher key % m.buckets.length < m.buckets.length := Nat.mod_lt _ (by omega)
  simp only [get, h0, ↓reduceIte, Option.some.injEq] at hg
  have hs : (findInChain key (m.buckets.getD (m.hasher key % m.buckets.length) [])).isSome := by
    rw [hg]; rfl
  refine ⟨{ m with
      buckets := m.buckets.set (m.hasher key % m.buckets.length)
        (dropKey key (m.buckets.getD (m.hasher key % m.buckets.length) []))
      size_ := decrement m.size_ },
    by rw [remove_eq m key h1, if_pos hs], rfl, by simp, rfl, rfl, ?_, ?_, ?_⟩
  · intro other hne
    exact get_set_other m key other _ _ h1 (findInChain_dropKey_of_ne key other _ hne)
  · have := entryCount_set m.buckets (m.hasher key % m.buckets.length)
      (dropKey key (m.buckets.getD (m.hasher key % m.buckets.length) [])) hi
    have hl := length_dropKey key _ hs
    simp only at this ⊢
    omega
  · intro hnd
    have hch : ((m.buckets.getD (m.hasher key % m.buckets.length) []).map Prod.fst).Nodup := by
      rcases getD_mem_or_nil m.buckets (m.hasher key % m.buckets.length) with hm | hm
      · exact hnd _ hm
      · rw [hm]; simp
    constructor
    · intro c hmem
      rcases mem_set_cases _ _ _ _ hmem with hc | hc
      · subst hc
        exact hch.sublist (dropKey_keys_sublist key _)
      · exact hnd c hc
    · rw [get_set_self m key _ _ h1, findInChain_dropKey_self key _ hch]

/-! ## The invariant of the reachable states -/

theorem get_construct (initial_capacity : Nat) (max_load_factor : ℚ) (hasher : K → Nat)
    (key : K) (h : 1 ≤ initial_capacity) :
    (construct initial_capacity max_load_factor hasher : HashMap K V).get key = some none := by
  have h0 : initial_capacity ≠ 0 := by omega
  have hd : (List.replicate initial_capacity ([] : List (K × V))).getD
      (hasher key % initial_capacity) [] = [] := by
    rcases getD_mem_or_nil (List.replicate initial_capacity ([] : List (K × V)))
      (hasher key % initial_capacity) with hm | hm
    · exact List.eq_of_mem_replicate hm
    · exact hm
  simp only [get, construct, List.length_replicate, h0, ↓reduceIte, hd, findInChain]

theorem inv_insert (m m' : HashMap K V) (key : K) (value : V) (hinv : Inv m)
    (e : m.insert key value = some m') : Inv m' := by
  obtain ⟨m1, e1, hlen, hs, _, _, hcount, hnd⟩ := growStep_spec m hinv.cap_pos
  have hcap1 : 1 ≤ m1.buckets.length := by
    have := hinv.cap_pos
    rw [hlen]; split <;> omega
  obtain ⟨m2, e2, hlen2, _, _, _, _, hnew, hold, hnd2⟩ := insertAt_spec m1 key value hcap1
  have e' : m.insert key value = some m2 := by
    simp only [insert, e1, Option.some_bind, e2]
  rw [e] at e'
  cases e'
  refine ⟨by omega, hnd2 (hnd hinv.nodup), ?_⟩
  have := hinv.count_le
  by_cases hg : m1.get key = some none
  · have := hnew hg
    omega
  · have := hold hg
    omega

theorem inv_remove (m m' : HashMap K V) (key : K) (found : Bool) (hinv : Inv m)
    (e : m.remove key = some (found, m')) : Inv m' := by
  have h0 : m.buckets.length ≠ 0 := by have := hinv.cap_pos; omega
  have hget : m.get key
      = some (findInChain key (m.buckets.getD (m.hasher key % m.buckets.length) [])) := by
    simp only [get, h0, ↓reduceIte]
  cases hf : findInChain key (m.buckets.getD (m.hasher key % m.buckets.length) []) with
  | none =>
    rw [hf] at hget
    rw [remove_absent m key hget] at e
    cases e
    exact hinv
  | some value =>
    rw [hf] at hget
    obtain ⟨m1, e1, hs, hlen, _, _, _, hcount, hnd⟩ := remove_present m key value hget
    rw [e] at e1
    cases e1
    refine ⟨by have := hinv.cap_pos; omega, (hnd hinv.nodup).1, ?_⟩
    have := hinv.count_le
    have hpos : m.size_ ≠ 0 := by omega
    rw [hs]
    simp only [decrement, hpos, ↓reduceIte]
    omega

/-- Every reachable state satisfies the invariant. -/
theorem inv_of_reachable (m : HashMap K V) (h : Reachable m) : Inv m := by
  induction h with
  | construct cap lf hasher hcap => exact inv_construct cap lf hasher hcap
  | insert key value _ e ih => exact inv_insert _ _ key value ih e
  | remove key found _ e ih => exact inv_remove _ _ key found ih e
  | resize n _ hn e ih => exact inv_resize _ _ n ih hn e

/-! ## Home buckets in the reachable states -/

theorem home_insertAt (m m' : HashMap K V) (key : K) (value : V) (h1 : 1 ≤ m.buckets.length)
    (hh : HomeTable m.hasher m.buckets.length m.buckets)
    (e : m.insertAt key value = some m') :
    HomeTable m'.hasher m'.buckets.length m'.buckets := by
  have hi : m.hasher key % m.buckets.length < m.buckets.length := Nat.mod_lt _ (by omega)
  rcases insertAt_cases m key value h1 with ⟨_, e'⟩ | ⟨chain, hu, e'⟩
  · rw [e] at e'
    cases e'
    simp only [List.length_set]
    apply homeTable_set _ _ _ _ _ hi hh
    intro x hx
    rcases List.mem_cons.1 hx with hx | hx
    · rw [hx]
    · exact hh _ x hx
  · rw [e] at e'
    cases e'
    simp only [List.length_set]
    apply homeTable_set _ _ _ _ _ hi hh
    intro x hx
    have hk : x.1 ∈ chain.map Prod.fst := List.mem_map.2 ⟨x, hx, rfl⟩
    rw [updateChain_keys key value _ chain hu] at hk
    obtain ⟨y, hy, hyk⟩ := List.mem_map.1 hk
    rw [← hyk]
    exact hh _ y hy

theorem home_insert (m m' : HashMap K V) (key : K) (value : V) (h1 : 1 ≤ m.buckets.length)
    (hh : HomeTable m.hasher m.buckets.length m.buckets)
    (e : m.insert key value = some m') :
    HomeTable m'.hasher m'.buckets.length m'.buckets := by
  obtain ⟨m1, e1, hlen, _⟩ := growStep_spec m h1
  have hcap1 : 1 ≤ m1.buckets.length := by
    rw [hlen]; split <;> omega
  simp only [insert, e1, Option.some_bind] at e
  refine home_insertAt m1 m' key value hcap1 ?_ e
  by_cases hl : m.loadExceeded = true
  · simp only [hl, ↓reduceIte] at e1
    exact resize_home m m1 _ (by omega) e1
  · have hl' : m.loadExceeded = false := by simpa using hl
    simp only [hl', Bool.false_eq_true, ↓reduceIte, Option.some.injEq] at e1
    rw [← e1]; exact hh

theorem home_remove (m m' : HashMap K V) (key : K) (found : Bool) (h1 : 1 ≤ m.buckets.length)
    (hh : HomeTable m.hasher m.buckets.length m.buckets)
    (e : m.remove key = some (found, m')) :
    HomeTable m'.hasher m'.buckets.length m'.buckets := by
  have hi : m.hasher key % m.buckets.length < m.buckets.length := Nat.mod_lt _ (by omega)
  rw [remove_eq m key h1] at e
  by_cases hs :
      (findInChain key (m.buckets.getD (m.hasher key % m.buckets.length) [])).isSome = true
  · simp only [hs, ↓reduceIte, Option.some.injEq, Prod.mk.injEq] at e
    obtain ⟨_, rfl⟩ := e
    simp only [List.length_set]
    apply homeTable_set _ _ _ _ _ hi hh
    intro x hx
    have hk : x.1 ∈ (dropKey key
        (m.buckets.getD (m.hasher key % m.buckets.length) [])).map Prod.fst :=
      List.mem_map.2 ⟨x, hx, rfl⟩
    obtain ⟨y, hy, hyk⟩ := List.mem_map.1 ((dropKey_keys_sublist key _).subset hk)
    rw [← hyk]
    exact hh _ y hy
  · simp only [hs, Bool.false_eq_true, ↓reduceIte, Option.some.injEq, Prod.mk.injEq] at e
    obtain ⟨_, rfl⟩ := e
    exact hh

/-- Every reachable state satisfies the home-bucket property. -/
theorem home_of_reachable (m : HashMap K V) (h : Reachable m) :
    HomeTable m.hasher m.buckets.length m.buckets := by
  induction h with
  | construct cap lf hasher hcap =>
    simp only [construct, List.length_replicate]
    exact homeTable_replicate hasher cap cap
  | insert key value hr e ih =>
    exact home_insert _ _ key value (inv_of_reachable _ hr).cap_pos ih e
  | remove key found hr e ih =>
    exact home_remove _ _ key found (inv_of_reachable _ hr).cap_pos ih e
  | resize n _ hn e _ => exact resize_home _ _ n hn e

/-- Below the growth threshold `insert` is `insertAt`, with everything `insertAt_spec` says. -/
theorem insert_spec_of_not_loadExceeded (m : HashMap K V) (key : K) (value : V)
    (h : 1 ≤ m.buckets.length) (hl : m.loadExceeded = false) :
    ∃ m', m.insert key value = some m' ∧ m'.buckets.length = m.buckets.length ∧
      m'.hasher = m.hasher ∧ m'.max_load_factor_ = m.max_load_factor_ ∧
      m'.get key = some (some value) ∧
      (∀ other, other ≠ key → m'.get other = m.get other) ∧
      (m.get key = some none →
        m'.size_ = m.size_ + 1 ∧ entryCount m'.buckets = entryCount m.buckets + 1) ∧
      (m.get key ≠ some none →
        m'.size_ = m.size_ ∧ entryCount m'.buckets = entryCount m.buckets) ∧
      ((∀ c ∈ m.buckets, (c.map Prod.fst).Nodup) →
        ∀ c ∈ m'.buckets, (c.map Prod.fst).Nodup) := by
  rw [insert_of_not_loadExceeded m key value hl]
  exact insertAt_spec m key value h

/-- C3: last write wins.  On every map with at least one bucket, `insert(key, value)` returns
and `get(key)` on the state it leaves yields `value`; nothing is assumed about `key` being
present before or about the growth step firing. -/
theorem get_insert_self (m : HashMap K V) (key : K) (value : V) (h : 1 ≤ m.buckets.length) :
    ∃ m', m.insert key value = some m' ∧ m'.get key = some (some value) := by
  obtain ⟨m1, e1, hlen, _, _, _, _, _⟩ := growStep_spec m h
  have hcap1 : 1 ≤ m1.buckets.length := by
    rw [hlen]; split <;> omega
  obtain ⟨m2, e2, _, _, _, hget, _⟩ := insertAt_spec m1 key value hcap1
  exact ⟨m2, by simp only [insert, e1, Option.some_bind, e2], hget⟩

/-- C6: on every map, removing a key that `get` reports as not found returns `false` and the
state afterwards is the state before (same `size_`, same chains). -/
theorem remove_of_get_none (m : HashMap K V) (key : K) (h : 1 ≤ m.buckets.length)
    (hg : m.get key = some none) :
    ∃ m', m.remove key = some (false, m') ∧ m'.size = m.size ∧ m'.buckets = m.buckets := by
  have h0 : m.buckets.length ≠ 0 := by omega
  simp only [get, h0, ↓reduceIte, Option.some.injEq] at hg
  refine ⟨m, ?_, rfl, rfl⟩
  rw [remove_eq m key h, hg]
  rfl

/-- C10: the demo of `main.cpp`, for every hash function on strings.  On the default map the
three inserts return, `size()` is 3 and `get("two")` is 2; `remove("one")` returns `true`,
after which `size()` is 2, `get("one")` reports not-found and the other two keys keep their
values. -/
theorem demo_scenario (hasher : String → Nat) :
    ∃ m1 m2 m3 m4 : HashMap String Int,
      (constructDefault hasher).insert "one" 1 = some m1 ∧
      m1.insert "two" 2 = some m2 ∧
      m2.insert "three" 3 = some m3 ∧
      m3.size = 3 ∧ m3.get "two" = some (some 2) ∧
      m3.remove "one" = some (true, m4) ∧
      m4.size = 2 ∧ m4.get "one" = some none ∧
      m4.get "two" = some (some 2) ∧ m4.get "three" = some (some 3) := by
  have hr0 : Reachable (constructDefault hasher : HashMap String Int) :=
    Reachable.construct 16 (3 / 4) hasher (by omega)
  have hlen0 : (constructDefault hasher : HashMap String Int).buckets.length = 16 := by
    simp [constructDefault, construct]
  have hlf0 : (constructDefault hasher : HashMap String Int).max_load_factor_ = 3 / 4 := rfl
  have hs0 : (constructDefault hasher : HashMap String Int).size_ = 0 := rfl
  have hg0 : ∀ key, (constructDefault hasher : HashMap String Int).get key = some none :=
    fun key => get_construct 16 (3 / 4) hasher key (by omega)
  have hl0 : (constructDefault hasher : HashMap String Int).loadExceeded = false :=
    loadExceeded_default_small _ hlen0 hlf0 (by omega)
  obtain ⟨m1, e1, hlen1, _, hlf1, hg1, ho1, hnew1, _, _⟩ :=
    insert_spec_of_not_loadExceeded _ "one" (1 : Int) (by omega) hl0
  have hs1 : m1.size_ = 1 := by rw [(hnew1 (hg0 _)).1, hs0]
  have hl1 : m1.loadExceeded = false :=
    loadExceeded_default_small _ (hlen1.trans hlen0) (hlf1.trans hlf0) (by omega)
  obtain ⟨m2, e2, hlen2, _, hlf2, hg2, ho2, hnew2, _, _⟩ :=
    insert_spec_of_not_loadExceeded m1 "two" (2 : Int) (by omega) hl1
  have hs2 : m2.size_ = 2 := by
    rw [(hnew2 (by rw [ho1 "two" (by decide)]; exact hg0 _)).1, hs1]
  have hl2 : m2.loadExceeded = false :=
    loadExceeded_default_small _ (hlen2.trans (hlen1.trans hlen0))
      (hlf2.trans (hlf1.trans hlf0)) (by omega)
  obtain ⟨m3, e3, _, _, _, hg3, ho3, hnew3, _, _⟩ :=
    insert_spec_of_not_loadExceeded m2 "three" (3 : Int) (by omega) hl2
  have hs3 : m3.size_ = 3 := by
    rw [(hnew3 (by
      rw [ho2 "three" (by decide), ho1 "three" (by decide)]; exact hg0 _)).1, hs2]
  have hr3 : Reachable m3 :=
    Reachable.insert "three" 3 (Reachable.insert "two" 2 (Reachable.insert "one" 1 hr0 e1) e2) e3
  have hone : m3.get "one" = some (some 1) := by
    rw [ho3 "one" (by decide), ho2 "one" (by decide)]; exact hg1
  have htwo : m3.get "two" = some (some 2) := by
    rw [ho3 "two" (by decide)]; exact hg2
  obtain ⟨m4, e4, hs4, _, _, _, ho4, _, hnd4⟩ := remove_present m3 "one" 1 hone
  refine ⟨m1, m2, m3, m4, e1, e2, e3, hs3, htwo, e4, ?_,
    (hnd4 (inv_of_reachable m3 hr3).nodup).2, ?_, ?_⟩
  · simp only [size, hs4, hs3, decrement]
    decide
  · rw [ho4 "two" (by decide)]; exact htwo
  · rw [ho4 "three" (by decide)]; exact hg3

/-- C11: key uniqueness.  In every reachable state the keys of all nodes of all chains, taken
together, contain no key twice. -/
theorem keys_nodup_of_reachable (m : HashMap K V) (hr : Reachable m) :
    ((m.buckets.flatten).map Prod.fst).Nodup :=
  nodup_keys_flatten m.hasher m.buckets.length m.buckets 0
    (fun i e he => by rw [Nat.zero_add]; exact home_of_reachable m hr i e he)
    (inv_of_reachable m hr).nodup

/-- C12: home buckets.  In every reachable state each node in the chain of bucket `i` has
`hasher(key) % buckets.size() = i`, and `resize(n)` with `n ≥ 1` returns a table of exactly `n`
buckets. -/
theorem home_bucket_of_reachable (m : HashMap K V) (hr : Reachable m) :
    (∀ i, ∀ e ∈ m.buckets.getD i [], m.hasher e.1 % m.buckets.length = i) ∧
      ∀ n, 1 ≤ n → ∃ m', m.resize n = some m' ∧ m'.buckets.length = n := by
  refine ⟨home_of_reachable m hr, ?_⟩
  intro n hn
  obtain ⟨m', e, hlen, _⟩ := resize_spec m n hn
  exact ⟨m', e, hlen⟩

/-- C13: `remove` twice.  In every reachable state the first `remove(key)` returns `true`
exactly when `get(key)` finds the key, and a second `remove(key)` right after it returns `false`
and leaves the state of the first call as it is. -/
theorem remove_twice (m : HashMap K V) (key : K) (hr : Reachable m) :
    ∃ found m1, m.remove key = some (found, m1) ∧
      (found = true ↔ ∃ value, m.get key = some (some value)) ∧
      m1.remove key = some (false, m1) := by
  have hinv := inv_of_reachable m hr
  have h0 : m.buckets.length ≠ 0 := by have := hinv.cap_pos; omega
  have hget : m.get key
      = some (findInChain key (m.buckets.getD (m.hasher key % m.buckets.length) [])) := by
    simp only [get, h0, ↓reduceIte]
  cases hf : findInChain key (m.buckets.getD (m.hasher key % m.buckets.length) []) with
  | none =>
    rw [hf] at hget
    refine ⟨false, m, remove_absent m key hget, ?_, remove_absent m key hget⟩
    simp [hget]
  | some value =>
    rw [hf] at hget
    obtain ⟨m1, e1, _, _, _, _, _, _, hnd⟩ := remove_present m key value hget
    refine ⟨true, m1, e1, ?_, remove_absent m1 key (hnd hinv.nodup).2⟩
    simp [hget]

/-- C14 (as amended): in every reachable state, so on every map constructed with
`initial_capacity ≥ 1` and any load factor, the table has at least one bucket, the growth step
of `insert` returns a table with at least one bucket, and `insert` returns. -/
theorem insert_defined (m : HashMap K V) (key : K) (value : V) (hr : Reachable m) :
    1 ≤ m.buckets.length ∧
      ∃ m1, (if m.loadExceeded then m.resize (m.buckets.length * 2) else some m) = some m1 ∧
        1 ≤ m1.buckets.length ∧ ∃ m', m.insert key value = some m' := by
  have h1 := (inv_of_reachable m hr).cap_pos
  obtain ⟨m1, e1, hlen, _⟩ := growStep_spec m h1
  have hcap1 : 1 ≤ m1.buckets.length := by
    rw [hlen]; split <;> omega
  obtain ⟨m2, e2, _⟩ := insertAt_spec m1 key value hcap1
  exact ⟨h1, m1, e1, hcap1, m2, by simp only [insert, e1, Option.some_bind, e2]⟩

/-- C17: `remove` touches only its own key.  In every reachable state and for `other ≠ key`,
`remove(key)` returns, `get(other)` afterwards is what it was before, and the table length is
unchanged, whether or not `key` was there. -/
theorem remove_get_other (m : HashMap K V) (key other : K) (hr : Reachable m)
    (hne : other ≠ key) :
    ∃ found m', m.remove key = some (found, m') ∧ m'.get other = m.get other ∧
      m'.buckets.length = m.buckets.length := by
  have hinv := inv_of_reachable m hr
  have h0 : m.buckets.length ≠ 0 := by have := hinv.cap_pos; omega
  have hget : m.get key
      = some (findInChain key (m.buckets.getD (m.hasher key % m.buckets.length) [])) := by
    simp only [get, h0, ↓reduceIte]
  cases hf : findInChain key (m.buckets.getD (m.hasher key % m.buckets.length) []) with
  | none =>
    rw [hf] at hget
    exact ⟨false, m, remove_absent m key hget, rfl, rfl⟩
  | some value =>
    rw [hf] at hget
    obtain ⟨m1, e1, _, hlen, _, _, ho, _, _⟩ := remove_present m key value hget
    exact ⟨true, m1, e1, ho other hne, hlen⟩

/-- C18 (as amended): `insert` without growth touches only its own key.  In every reachable
state in which the binary32 quotient `float(size() + 1) / buckets.size()` is at most
`max_load_factor_`, so that the load test of `insert` does not fire, and for `other ≠ key`,
`insert(key, value)` returns and `get(other)` afterwards is what it was before. -/
theorem insert_get_other (m : HashMap K V) (key other : K) (value : V) (hr : Reachable m)
    (hload : toFloat (toFloat ((m.size + 1 : Nat) : ℚ) / toFloat ((m.buckets.length : Nat) : ℚ))
      ≤ m.max_load_factor_)
    (hne : other ≠ key) :
    ∃ m', m.insert key value = some m' ∧ m'.get other = m.get other := by
  have h1 := (inv_of_reachable m hr).cap_pos
  have h0 : m.buckets.length ≠ 0 := by omega
  have hl : m.loadExceeded = false := by
    simp only [loadExceeded, h0, ↓reduceIte, decide_eq_false_iff_not, not_lt]
    exact hload
  obtain ⟨m', e, _, _, _, _, ho, _⟩ := insert_spec_of_not_loadExceeded m key value h1 hl
  exact ⟨m', e, ho other hne⟩

end HashMap

/-! ## Concrete runs -/

theorem oneEntryMap_reachable : HashMap.Reachable oneEntryMap :=
  HashMap.Reachable.insert 0 10 (HashMap.Reachable.construct 1 1 idHash (by omega))
    (by with_unfolding_all rfl)

theorem collidingMap_reachable : HashMap.Reachable collidingMap :=
  HashMap.Reachable.insert 4 14 oneEntryMap_reachable (by with_unfolding_all rfl)

theorem lossyMap_reachable : HashMap.Reachable lossyMap :=
  HashMap.Reachable.insert 8 18 collidingMap_reachable (by with_unfolding_all rfl)

theorem drainedMap_reachable : HashMap.Reachable drainedMap :=
  HashMap.Reachable.remove 0 true
    (HashMap.Reachable.remove 8 true lossyMap_reachable
      (show lossyMap.remove 8 = some (true, ⟨[[(0, 10)], [], [], []], 2, 1, idHash⟩) by
        with_unfolding_all rfl))
    (by with_unfolding_all rfl)

/-- C3, at a concrete map: `collidingMap` holds key 4, and `insert(4, 15)` on it triggers the
growth step. -/
theorem get_insert_self_witness :
    1 ≤ collidingMap.buckets.length ∧
      ∃ m', collidingMap.insert 4 15 = some m' ∧ m'.get 4 = some (some 15) :=
  ⟨by decide, HashMap.get_insert_self collidingMap 4 15 (by decide)⟩

/-- C6, at a concrete map: key 2 hashes to the two-node chain of `collidingMap` and is not
in it. -/
theorem remove_of_get_none_witness :
    1 ≤ collidingMap.buckets.length ∧ collidingMap.get 2 = some none ∧
      ∃ m', collidingMap.remove 2 = some (false, m') ∧ m'.size = collidingMap.size ∧
        m'.buckets = collidingMap.buckets :=
  ⟨by decide, by decide, HashMap.remove_of_get_none collidingMap 2 (by decide) (by decide)⟩

/-- C1 (the code breaks it): on `HashMap<size_t, int>(1, 1.0f)` with the identity hash, the
calls `insert(0, 10)`, `insert(4, 14)`, `insert(8, 18)` all return, and `get(4)` on the final
map reports not-found although the last insert for key 4 stored 14: the `resize(4)` of the
third insert stored node 0 over node 4 in bucket 0. -/
theorem insertAll_get_not_found :
    ((HashMap.construct 1 1 idHash : HashMap Nat Nat).insertAll
        [(0, 10), (4, 14), (8, 18)]).bind (fun m => m.get 4) = some none := by
  decide!

/-- C2 (the code breaks it): `collidingMap` is reachable, the load test of `insert` fires on
it, `get(4)` finds 14 in it, and after `resize(2 * buckets.size())`, the call `insert` then
makes, `get(4)` reports not-found. -/
theorem resize_get_not_found :
    HashMap.Reachable collidingMap ∧ collidingMap.loadExceeded = true ∧
      collidingMap.get 4 = some (some 14) ∧
      (collidingMap.resize (2 * collidingMap.buckets.length)).bind (fun m => m.get 4)
        = some none :=
  ⟨collidingMap_reachable, by decide!, by decide, by decide⟩

/-- C4 (the code breaks it): from the reachable `oneEntryMap`, `insert(4, 14)` leaves
`size() = 2` and a second `insert(4, 15)` leaves `size() = 3`: its growth step dropped the
node of key 4, so the key was linked and counted again. -/
theorem insert_twice_size_grows :
    HashMap.Reachable oneEntryMap ∧
      (oneEntryMap.insert 4 14).map HashMap.size = some 2 ∧
      ((oneEntryMap.insert 4 14).bind fun m => m.insert 4 15).map HashMap.size = some 3 :=
  ⟨oneEntryMap_reachable, by decide!, by decide!⟩

/-- C7 (the code breaks it): on `HashMap<size_t, int>(1, 0.25f)` the first `insert` doubles
the table once, to 2 buckets, and leaves `size() = 1`: the ratio 1/2 exceeds 1/4. -/
theorem load_factor_exceeded_after_insert :
    ∃ m', (HashMap.construct 1 (1 / 4) idHash : HashMap Nat Nat).insert 0 10 = some m' ∧
      ¬ ((m'.size : ℚ) / (m'.buckets.length : ℚ) ≤ m'.max_load_factor_) := by
  refine ⟨⟨[[(0, 10)], []], 1, 1 / 4, idHash⟩, by with_unfolding_all rfl, ?_⟩
  norm_num [HashMap.size]

/-- C8 (the code breaks it): the reachable `lossyMap` has `size() = 3` with 2 nodes stored,
and the reachable `drainedMap` stores no node while `empty()` is false. -/
theorem size_ne_entryCount :
    HashMap.Reachable lossyMap ∧ lossyMap.size = 3 ∧ HashMap.entryCount lossyMap.buckets = 2 ∧
      HashMap.Reachable drainedMap ∧ HashMap.entryCount drainedMap.buckets = 0 ∧
      drainedMap.empty = false :=
  ⟨lossyMap_reachable, by decide, by decide, drainedMap_reachable, by decide, by decide⟩

/-- C9 (the code breaks the retrieval part): with the identity hash and the thirteen distinct
keys of `thirteenKeys` inserted into the default map, the table has 16 buckets after twelve
inserts and 32 after the thirteenth, and `get(32)` then reports not-found. -/
theorem thirteen_keys_one_lost :
    (thirteenKeys.map Prod.fst).Nodup ∧
      ((HashMap.constructDefault idHash : HashMap Nat Nat).insertAll
        (thirteenKeys.take 12)).map (fun m => m.buckets.length) = some 16 ∧
      ((HashMap.constructDefault idHash : HashMap Nat Nat).insertAll
        thirteenKeys).map (fun m => m.buckets.length) = some 32 ∧
      ((HashMap.constructDefault idHash : HashMap Nat Nat).insertAll
        thirteenKeys).bind (fun m => m.get 32) = some none :=
  ⟨by decide, by decide!, by decide!, by decide!⟩

theorem roomyMap_reachable : HashMap.Reachable roomyMap :=
  HashMap.Reachable.insert 0 10 (HashMap.Reachable.construct 2 1 idHash (by omega))
    (by with_unfolding_all rfl)

/-- C11, at a concrete map: `lossyMap`, reached through two growth steps. -/
theorem keys_nodup_of_reachable_witness :
    HashMap.Reachable lossyMap ∧ ((lossyMap.buckets.flatten).map Prod.fst).Nodup :=
  ⟨lossyMap_reachable, HashMap.keys_nodup_of_reachable lossyMap lossyMap_reachable⟩

/-- C12, at a concrete map: `collidingMap`, whose bucket 0 holds the keys 4 and 0. -/
theorem home_bucket_of_reachable_witness :
    HashMap.Reachable collidingMap ∧
      (∀ i, ∀ e ∈ collidingMap.buckets.getD i [],
        collidingMap.hasher e.1 % collidingMap.buckets.length = i) ∧
      ∀ n, 1 ≤ n → ∃ m', collidingMap.resize n = some m' ∧ m'.buckets.length = n :=
  ⟨collidingMap_reachable, HashMap.home_bucket_of_reachable collidingMap collidingMap_reachable⟩

/-- C13, at a concrete map: key 0 of `collidingMap`. -/
theorem remove_twice_witness :
    HashMap.Reachable collidingMap ∧
      ∃ found m1, collidingMap.remove 0 = some (found, m1) ∧
        (found = true ↔ ∃ value, collidingMap.get 0 = some (some value)) ∧
        m1.remove 0 = some (false, m1) :=
  ⟨collidingMap_reachable, HashMap.remove_twice collidingMap 0 collidingMap_reachable⟩

/-- C14 (as stated, it fails): the constructor accepts `initial_capacity = 0`; the table then
has no bucket, and `insert(0, 10)` is undefined: its growth step calls `resize(0)` and the
index is computed modulo 0. -/
theorem construct_zero_insert_undefined :
    ¬ (1 ≤ (HashMap.construct 0 (3 / 4) idHash : HashMap Nat Nat).buckets.length) ∧
      (HashMap.construct 0 (3 / 4) idHash : HashMap Nat Nat).insert 0 10 = none :=
  ⟨by decide, by with_unfolding_all rfl⟩

/-- C14 (as amended), at a concrete map: `HashMap<size_t, int>(1, 0.25f)`. -/
theorem insert_defined_witness :
    HashMap.Reachable (HashMap.construct 1 (1 / 4) idHash : HashMap Nat Nat) ∧
      1 ≤ (HashMap.construct 1 (1 / 4) idHash : HashMap Nat Nat).buckets.length ∧
      ∃ m1, (if (HashMap.construct 1 (1 / 4) idHash : HashMap Nat Nat).loadExceeded
          then (HashMap.construct 1 (1 / 4) idHash : HashMap Nat Nat).resize
            ((HashMap.construct 1 (1 / 4) idHash : HashMap Nat Nat).buckets.length * 2)
          else some (HashMap.construct 1 (1 / 4) idHash : HashMap Nat Nat)) = some m1 ∧
        1 ≤ m1.buckets.length ∧
        ∃ m', (HashMap.construct 1 (1 / 4) idHash : HashMap Nat Nat).insert 0 10 = some m' :=
  ⟨HashMap.Reachable.construct 1 (1 / 4) idHash (by omega),
    HashMap.insert_defined _ 0 10 (HashMap.Reachable.construct 1 (1 / 4) idHash (by omega))⟩

/-- C17, at a concrete map: removing key 4 of `collidingMap` and reading key 0, which shares
its chain. -/
theorem remove_get_other_witness :
    HashMap.Reachable collidingMap ∧ (0 : Nat) ≠ 4 ∧
      ∃ found m', collidingMap.remove 4 = some (found, m') ∧
        m'.get 0 = collidingMap.get 0 ∧ m'.buckets.length = collidingMap.buckets.length :=
  ⟨collidingMap_reachable, by decide,
    HashMap.remove_get_other collidingMap 4 0 collidingMap_reachable (by decide)⟩

/-- C19, at a concrete map: `resize(4)` on `collidingMap`, where keys 4 and 0 meet again in
bucket 0. -/
theorem resize_shape_witness :
    1 ≤ 4 ∧
      ∃ m', collidingMap.resize 4 = some m' ∧ (∀ c ∈ m'.buckets, c.length ≤ 1) ∧
        (∀ c ∈ m'.buckets, ∀ x ∈ c, ∃ b ∈ collidingMap.buckets, x ∈ b) ∧
        m'.size = collidingMap.size :=
  ⟨by decide, HashMap.resize_shape collidingMap 4 (by decide)⟩

theorem reachable_insertAll {K V : Type} [DecidableEq K] (m m' : HashMap K V)
    (l : List (K × V)) (hr : HashMap.Reachable m) (e : m.insertAll l = some m') :
    HashMap.Reachable m' := by
  induction l generalizing m with
  | nil =>
    simp only [HashMap.insertAll, Option.some.injEq] at e
    rw [← e]; exact hr
  | cons kv rest ih =>
    cases e1 : m.insert kv.1 kv.2 with
    | none => simp [HashMap.insertAll, e1] at e
    | some m1 =>
      simp only [HashMap.insertAll, e1, Option.some_bind] at e
      exact ih m1 (HashMap.Reachable.insert kv.1 kv.2 hr e1) e

theorem tenBucketMap_reachable : HashMap.Reachable tenBucketMap :=
  reachable_insertAll (HashMap.construct 10 (11744051 / 16777216) idHash) tenBucketMap
    [(0, 10), (1, 11), (2, 12), (3, 13), (4, 14), (5, 15)]
    (HashMap.Reachable.construct 10 (11744051 / 16777216) idHash (by omega))
    (by with_unfolding_all rfl)

/-- C18 (as amended), at a concrete map: `tenBucketMap` takes key 10 without growth (the
binary32 quotient is `0.7f`, the load factor), into the chain of key 0. -/
theorem insert_get_other_witness :
    HashMap.Reachable tenBucketMap ∧
      toFloat (toFloat ((tenBucketMap.size + 1 : Nat) : ℚ)
          / toFloat ((tenBucketMap.buckets.length : Nat) : ℚ))
        ≤ tenBucketMap.max_load_factor_ ∧
      (0 : Nat) ≠ 10 ∧
      ∃ m', tenBucketMap.insert 10 20 = some m' ∧ m'.get 0 = tenBucketMap.get 0 :=
  ⟨tenBucketMap_reachable, by decide!, by decide,
    HashMap.insert_get_other tenBucketMap 10 0 20 tenBucketMap_reachable (by decide!)
      (by decide)⟩

theorem findInChain_countdown_absent (n k : Nat) (h : n ≤ k) :
    HashMap.findInChain k (countdownChain n) = none := by
  induction n with
  | zero => rfl
  | succ n ih =>
    have hne : ¬ n = k := by omega
    simp only [countdownChain, HashMap.findInChain, hne, ↓reduceIte]
    exact ih (by omega)

theorem findInChain_countdown_present (n k : Nat) (h : k < n) :
    HashMap.findInChain k (countdownChain n) = some 0 := by
  induction n with
  | zero => omega
  | succ n ih =>
    by_cases hk : n = k
    · simp only [countdownChain, HashMap.findInChain, hk, ↓reduceIte]
    · simp only [countdownChain, HashMap.findInChain, hk, ↓reduceIte]
      exact ih (by omega)

/-- Below `2 ^ 24 + 8` entries the load test does not fire on `crowdedMap`: two roundings raise
the exact quotient by at most the factor `(1 + 2 ^ (-24)) ^ 2`. -/
theorem loadExceeded_crowdedMap_small (n : Nat) (h : n + 1 ≤ 16777224) :
    (crowdedMap n).loadExceeded = false := by
  have h3 : toFloat ((3 : ℕ) : ℚ) = 3 := by decide!
  have hn : ((n + 1 : ℕ) : ℚ) ≤ 16777224 := by exact_mod_cast h
  have hn0 : (0 : ℚ) ≤ ((n + 1 : ℕ) : ℚ) := Nat.cast_nonneg _
  have ht0 := toFloat_nonneg _ hn0
  have ht := toFloat_le _ hn0
  have hx0 : 0 ≤ toFloat ((n + 1 : ℕ) : ℚ) / 3 := div_nonneg ht0 (by norm_num)
  have hx := toFloat_le _ hx0
  have hbound : toFloat (toFloat ((n + 1 : ℕ) : ℚ) / 3) ≤ 5592409 := by
    have h1 : toFloat ((n + 1 : ℕ) : ℚ) ≤ 16777224 * (1 + 1 / 2 ^ 24) :=
      le_trans ht (mul_le_mul_of_nonneg_right hn (by norm_num))
    have h2 : toFloat ((n + 1 : ℕ) : ℚ) / 3 * (1 + 1 / 2 ^ 24)
        ≤ 16777224 * (1 + 1 / 2 ^ 24) / 3 * (1 + 1 / 2 ^ 24) :=
      mul_le_mul_of_nonneg_right (div_le_div_of_nonneg_right h1 (by norm_num)) (by norm_num)
    have h4 : (16777224 : ℚ) * (1 + 1 / 2 ^ 24) / 3 * (1 + 1 / 2 ^ 24) ≤ 5592409 := by
      norm_num
    exact le_trans hx (le_trans h2 h4)
  have hlen : (crowdedMap n).buckets.length = 3 := rfl
  have hs : (crowdedMap n).size_ = n := rfl
  have hlf : (crowdedMap n).max_load_factor_ = 5592409 := rfl
  simp only [HashMap.loadExceeded, hlen, hs, hlf, h3, OfNat.ofNat_ne_zero, ↓reduceIte,
    decide_eq_false_iff_not, not_lt]
  exact hbound

theorem insert_crowdedMap (n : Nat) (hl : (crowdedMap n).loadExceeded = false) :
    (crowdedMap n).insert n 0 = some (crowdedMap (n + 1)) := by
  rw [HashMap.insert_of_not_loadExceeded _ _ _ hl]
  rcases HashMap.insertAt_cases (crowdedMap n) n 0 (Nat.le_of_ble_eq_true rfl) with
    ⟨_, e⟩ | ⟨chain, hu, _⟩
  · rw [e]
    rfl
  · have hu' : HashMap.updateChain n 0 (countdownChain n) = some chain := hu
    rw [(HashMap.updateChain_eq_none_iff n 0 _).2
      (findInChain_countdown_absent n n (Nat.le_refl n))] at hu'
    exact Option.noConfusion hu'

/-- The states `crowdedMap n` are reachable up to `2 ^ 24 + 10` entries. -/
theorem crowdedMap_reachable (n : Nat) (h : n ≤ 16777226) : HashMap.Reachable (crowdedMap n) := by
  induction n with
  | zero => exact HashMap.Reachable.construct 3 5592409 (fun _ => 0) (by omega)
  | succ n ih =>
    have hr := ih (by omega)
    have hl : (crowdedMap n).loadExceeded = false := by
      rcases (by omega : n + 1 ≤ 16777224 ∨ n = 16777224 ∨ n = 16777225) with h1 | h1 | h1
      · exact loadExceeded_crowdedMap_small n h1
      · subst h1; decide!
      · subst h1; decide!
    exact HashMap.Reachable.insert n 0 hr (insert_crowdedMap n hl)

theorem relinkChain_countdown (n : Nat) (nb : List (List (Nat × Nat))) :
    HashMap.relinkChain (fun _ => 0) 6 (countdownChain (n + 1)) nb
      = some (nb.set 0 [(0, 0)]) := by
  induction n generalizing nb with
  | zero => rfl
  | succ n ih =>
    have hstep : HashMap.relinkChain (fun _ => 0) 6 (countdownChain (n + 1 + 1)) nb
        = HashMap.relinkChain (fun _ => 0) 6 (countdownChain (n + 1))
            (nb.set 0 [(n + 1, 0)]) := rfl
    rw [hstep, ih]
    cases nb <;> rfl

theorem get_crowdedMap (n k : Nat) (h : k < n) : (crowdedMap n).get k = some (some 0) := by
  have e : (crowdedMap n).get k = some (HashMap.findInChain k (countdownChain n)) := rfl
  rw [e, findInChain_countdown_present n k h]

/-- The insert that grows `crowdedMap`: `resize(6)` leaves of the whole chain only its last
node, key 0, and the new key is linked in front of it. -/
theorem insert_crowdedMap_growth (n : Nat) (hl : (crowdedMap (n + 1)).loadExceeded = true) :
    (crowdedMap (n + 1)).insert (n + 1) 0
      = some ⟨[[(n + 1, 0), (0, 0)], [], [], [], [], []], n + 2, 5592409, fun _ => 0⟩ := by
  have hres : (crowdedMap (n + 1)).resize ((crowdedMap (n + 1)).buckets.length * 2)
      = some ⟨[[(0, 0)], [], [], [], [], []], n + 1, 5592409, fun _ => 0⟩ := by
    have e : HashMap.relinkBuckets (fun _ => 0) 6 [countdownChain (n + 1), [], []]
        (List.replicate 6 []) = some [[(0, 0)], [], [], [], [], []] := by
      show (HashMap.relinkChain (fun _ => 0) 6 (countdownChain (n + 1))
        (List.replicate 6 [])).bind (HashMap.relinkBuckets (fun _ => 0) 6 [[], []]) = _
      rw [relinkChain_countdown]
      rfl
    show Option.map _ (HashMap.relinkBuckets (fun _ => 0) 6 [countdownChain (n + 1), [], []]
      (List.replicate 6 [])) = _
    rw [e]
    rfl
  simp only [HashMap.insert, hl, ↓reduceIte, hres, Option.some_bind]
  have hne : ¬ (0 = n + 1) := by omega
  simp [HashMap.insertAt, HashMap.updateChain, hne]

/-- C18 (as stated, it fails): `crowdedMap (2 ^ 24 + 10)` is reachable; with 3 buckets,
`2 ^ 24 + 10` entries and load factor `5592409.0f` the exact quotient `(size() + 1) / 3` equals
the load factor, so the hypothesis of the claim holds.  In binary32, `size() + 1` rounds up to
`2 ^ 24 + 12` and the quotient to `5592409.5f`: the load test fires, `insert(2 ^ 24 + 10, 0)`
resizes, and `get(1)`, which found 0 before the call, reports not-found after it. -/
theorem insert_grows_under_exact_bound :
    HashMap.Reachable (crowdedMap 16777226) ∧
      (((crowdedMap 16777226).size + 1 : Nat) : ℚ) / ((crowdedMap 16777226).buckets.length : ℚ)
        ≤ (crowdedMap 16777226).max_load_factor_ ∧
      (1 : Nat) ≠ 16777226 ∧
      (crowdedMap 16777226).get 1 = some (some 0) ∧
      ∃ m', (crowdedMap 16777226).insert 16777226 0 = some m' ∧ m'.get 1 = some none := by
  refine ⟨crowdedMap_reachable 16777226 (Nat.le_refl _), ?_, by decide,
    get_crowdedMap 16777226 1 (by decide), _,
    insert_crowdedMap_growth 16777225 (by decide!), by decide⟩
  have hs : (crowdedMap 16777226).size = 16777226 := rfl
  have hlen : (crowdedMap 16777226).buckets.length = 3 := rfl
  have hlf : (crowdedMap 16777226).max_load_factor_ = 5592409 := rfl
  rw [hs, hlen, hlf]
  norm_num

end Chash
